import Mathlib

/-
A verification development for `bundle_libs.py`, the macOS post-build
packaging script of this repository.

The script is an orchestration of filesystem copies and of the external
tools `otool` / `install_name_tool`.  We embed it shallowly:

* a filesystem is a finite association list from absolute path strings to
  entries (directory, Mach-O binary, or plain file);
* a Mach-O binary is abstracted by the data the script manipulates through
  `otool` and `install_name_tool`: its install name (LC_ID_DYLIB), its
  dependency load commands (the list reported by `otool -L`), and its
  rpath load commands (LC_RPATH);
* `shutil.copy2` / `shutil.copytree` / `shutil.rmtree` / `Path.mkdir` /
  `Path.glob` / `Path.rglob` become the corresponding operations on the
  association list;
* `install_name_tool -id / -change / -add_rpath` become updates of the
  Mach-O record of the targeted path.  The textual containment check
  `f"path {rpath} " in otool -l output` of `add_rpath_if_missing` is
  abstracted as exact membership of the rpath in the binary's rpath list
  (the rendering of an LC_RPATH command by `otool -l` is `path X (offset
  N)`, so on unambiguous rpath sets the two coincide).

Python strings are modelled as `String`, operating on their underlying
character lists; `str.startswith` / `str.endswith` / `in` become prefix /
suffix / infix tests on character lists, and `pathlib.Path` values are
kept as the strings the script builds (the script only ever joins with
`/` and takes basenames).

The text-processing helper `otool_deps` (which parses the raw output of
`otool -L`) is additionally modelled literally on the raw output string.
-/

set_option maxHeartbeats 1000000
set_option maxRecDepth 4000

/-- `s.startswith t` of Python: `t.data` is a prefix of `s.data`. -/
def sStarts (s t : String) : Bool :=
  t.data.isPrefixOf s.data

/-- `s.endswith t` of Python: `t.data` is a suffix of `s.data`. -/
def sEnds (s t : String) : Bool :=
  t.data.isSuffixOf s.data

/-- Executable infix test on lists. -/
def isInfixOfL (pat : List Char) : List Char → Bool
  | [] => pat.isPrefixOf []
  | x :: xs => pat.isPrefixOf (x :: xs) || isInfixOfL pat xs

/-- `t in s` of Python: `t.data` is an infix of `s.data`. -/
def sContains (s t : String) : Bool :=
  isInfixOfL t.data s.data

/-- `str.split(sep)` of Python for a one-character separator, on character
lists: always returns at least one (possibly empty) piece. -/
def splitChar (c : Char) : List Char → List (List Char)
  | [] => [[]]
  | x :: xs =>
    if x = c then [] :: splitChar c xs
    else
      match splitChar c xs with
      | [] => [[x]]
      | h :: t => (x :: h) :: t

/-- `Path(s).name` of Python on the slash-joined paths the script builds:
the final path component. -/
def baseName (s : String) : String :=
  String.mk ((splitChar '/' s.data).getLastD [])

/-- Python truthiness of an `Optional[str]`: `None` and `""` are falsy. -/
def pyTruthy : Option String → Bool
  | none => false
  | some s => !s.isEmpty

-- ── The Mach-O load-command data the script manipulates ──────────────────

/-- The slice of a Mach-O binary visible to the script: install name
(`LC_ID_DYLIB`), dependency load commands (as listed by `otool -L`), and
rpath entries (`LC_RPATH`, as listed by `otool -l`). -/
structure MachO where
  instName : String
  deps : List String
  rpaths : List String
deriving DecidableEq, Repr

/-- A filesystem entry: a directory, a Mach-O binary, or a plain file. -/
inductive Entry where
  | dir
  | macho (m : MachO)
  | plain (content : String)
deriving DecidableEq, Repr

/-- A filesystem: a finite association list from paths to entries.
Lookup takes the first matching entry. -/
abbrev Fs := List (String × Entry)

def fsGet (fs : Fs) (p : String) : Option Entry :=
  (fs.find? (fun x => x.1 == p)).map (·.2)

/-- Create or overwrite the entry at `p`. -/
def fsSet (fs : Fs) (p : String) (e : Entry) : Fs :=
  (p, e) :: fs.filter (fun x => x.1 != p)

/-- `Path.exists()`: an entry at `p`, or an entry strictly below `p`
(a directory exists implicitly through its children). -/
def pExists (fs : Fs) (p : String) : Bool :=
  fs.any (fun x => x.1 == p || sStarts x.1 (p ++ "/"))

/-- `Path.is_dir()`: an explicit directory entry, or an implicit directory
that only exists through entries below it. -/
def isDirAt (fs : Fs) (p : String) : Bool :=
  match fsGet fs p with
  | some .dir => true
  | some _ => false
  | none => fs.any (fun x => sStarts x.1 (p ++ "/"))

/-- `shutil.copy2(src, dst)`: duplicate the entry found at `src` under
`dst` (the script only calls it when `src` exists). -/
def copy2 (fs : Fs) (src dst : String) : Fs :=
  match fsGet fs src with
  | some e => fsSet fs dst e
  | none => fs

/-- `shutil.rmtree(p)`: drop `p` and everything below it. -/
def rmTree (fs : Fs) (p : String) : Fs :=
  fs.filter (fun x => !(x.1 == p || sStarts x.1 (p ++ "/")))

/-- `shutil.copytree(src, dst)`: every entry at `src` or below reappears
at the corresponding path below `dst` (appended behind the existing
entries; the script removes `dst` first whenever it exists). -/
def copyTree (fs : Fs) (src dst : String) : Fs :=
  fs ++ fs.filterMap (fun x =>
    if x.1 == src then some (dst, x.2)
    else if sStarts x.1 (src ++ "/") then
      some (dst ++ String.mk (x.1.data.drop src.data.length), x.2)
    else none)

/-- `p.mkdir(parents=True, exist_ok=True)` for the directories the script
creates (their parent `bundle_dir` already exists). -/
def mkdirP (fs : Fs) (p : String) : Fs :=
  if pExists fs p then fs else fsSet fs p .dir

/-- `dir.rglob("*.dylib")`: paths of entries anywhere below `dir` whose
name ends in `.dylib`. -/
def rglobDylibs (fs : Fs) (dir : String) : List String :=
  fs.filterMap (fun x =>
    if sStarts x.1 (dir ++ "/") && sEnds x.1 ".dylib" then some x.1 else none)

/-- `dir.glob("*.dylib")`: paths of entries directly below `dir` whose
name ends in `.dylib`. -/
def globDylibs (fs : Fs) (dir : String) : List String :=
  fs.filterMap (fun x =>
    if sStarts x.1 (dir ++ "/") && sEnds x.1 ".dylib"
        && !((x.1.data.drop (dir.data.length + 1)).contains '/') then
      some x.1
    else none)

-- ── The script's helper functions ────────────────────────────────────────

/-- The fixed framework list `QT_FRAMEWORKS` of the script. -/
def QT_FRAMEWORKS : List String :=
  ["QtCore", "QtGui", "QtWidgets", "QtNetwork", "QtDBus", "QtPrintSupport"]

/-- The fixed plugin subdirectory list `QT_PLUGIN_SUBDIRS` of the script. -/
def QT_PLUGIN_SUBDIRS : List String :=
  ["platforms", "styles", "imageformats", "iconengines"]

/-- Python `str.splitlines()` restricted to the terminators `otool`
emits (`\n`, `\r\n`, `\r`); like Python, a trailing terminator does not
produce a final empty line. -/
def pySplitlinesAux : List Char → List Char → List String
  | [], acc => if acc.isEmpty then [] else [String.mk acc.reverse]
  | '\r' :: '\n' :: rest, acc => String.mk acc.reverse :: pySplitlinesAux rest []
  | '\r' :: rest, acc => String.mk acc.reverse :: pySplitlinesAux rest []
  | '\n' :: rest, acc => String.mk acc.reverse :: pySplitlinesAux rest []
  | c :: rest, acc => pySplitlinesAux rest (c :: acc)

def pySplitlines (s : String) : List String :=
  pySplitlinesAux s.data []

/-- Python `str.strip()` (over the whitespace characters that can occur
in `otool` output). -/
def pyStrip (s : String) : String :=
  String.mk (((s.data.dropWhile Char.isWhitespace).reverse.dropWhile
    Char.isWhitespace).reverse)

/-- Python `line.split(" ", 1)[0]`: the prefix of the line up to the
first space. -/
def firstField (s : String) : String :=
  String.mk (s.data.takeWhile (fun c => c ≠ ' '))

/-- `otool_deps`, modelled on the raw text produced by `otool -L`: skip
the first line, and for each remaining line append the stripped line's
prefix up to the first space (`lines 45-52` of the script). -/
def otool_deps (out : String) : List String :=
  ((pySplitlines out).drop 1).foldl
    (fun deps line => deps ++ [firstField (pyStrip line)]) []

/-- `framework_name` of the script: the first `/`-separated component of
`dep` ending in `.framework`, with that suffix removed. -/
def framework_name (dep : String) : Option String :=
  (splitChar '/' dep.data).findSome? (fun part =>
    if (".framework".data).isSuffixOf part then
      some (String.mk (part.take (part.length - ".framework".length)))
    else none)

/-- `add_rpath_if_missing` of the script, on the Mach-O record: skip when
the rpath is already present, otherwise run `install_name_tool
-add_rpath` (which appends an LC_RPATH command).  The returned flag
records whether `install_name_tool` was invoked. -/
def add_rpath_if_missing (m : MachO) (rpath : String) : MachO × Bool :=
  if rpath ∈ m.rpaths then (m, false)
  else ({ m with rpaths := m.rpaths ++ [rpath] }, true)

/-- `set_id` of the script: `install_name_tool -id`. -/
def set_id (m : MachO) (newId : String) : MachO :=
  { m with instName := newId }

-- ── The script's parameters and derived paths ────────────────────────────

/-- The five path parameters of `bundle` (`bundle_dir`, `plugin_bin`,
`qt_prefix`, `gimp_app`, `macports_prefix`). -/
structure Params where
  bundleDir : String
  pluginBin : String
  qt : String
  gimpApp : String
  mp : String
deriving DecidableEq, Repr

def frameworksDirOf (P : Params) : String := P.bundleDir ++ "/Frameworks"

def pluginsDirOf (P : Params) : String := frameworksDirOf P ++ "/plugins"

def libDirOf (P : Params) : String := frameworksDirOf P ++ "/lib"

/-- `<qt_prefix>/lib/<name>.framework`. -/
def qtFwSrc (P : Params) (name : String) : String :=
  P.qt ++ "/lib/" ++ name ++ ".framework"

/-- `<frameworks_dir>/<name>.framework`. -/
def qtFwDst (P : Params) (name : String) : String :=
  frameworksDirOf P ++ "/" ++ name ++ ".framework"

/-- `<frameworks_dir>/<name>.framework/Versions/5/<name>`. -/
def fwBinPath (P : Params) (name : String) : String :=
  frameworksDirOf P ++ "/" ++ name ++ ".framework/Versions/5/" ++ name

/-- The `explicit_libs` list of the script (lines 98-107). -/
def explicit_libs (P : Params) : List String :=
  [P.mp ++ "/lib/libfftw3.3.dylib",
   P.mp ++ "/lib/libfftw3_threads.3.dylib",
   P.mp ++ "/lib/libomp/libomp.dylib",
   P.mp ++ "/lib/libdbus-1.3.dylib",
   P.gimpApp ++ "/Contents/Resources/lib/libpng16.16.dylib",
   P.gimpApp ++ "/Contents/Resources/lib/libz.1.dylib",
   P.gimpApp ++ "/Contents/Resources/lib/libcurl.4.dylib"]

/-- `lib_dir / Path(dep).name`: the destination of a copied library. -/
def libdst (P : Params) (dep : String) : String :=
  libDirOf P ++ "/" ++ baseName dep

/-- The dependencies reported by `otool -L` for the binary at `p` (empty
when the path does not hold a Mach-O entry; the script only queries
binaries it has checked or created). -/
def machoDeps (fs : Fs) (p : String) : List String :=
  match fsGet fs p with
  | some (.macho m) => m.deps
  | _ => []

-- ── The transitive-dependency walk (lines 151-171) ───────────────────────

/-- The filter of the walk's inner loop (lines 158-165), with the
`continue`s of the source in order: a dependency is copied when it
survives the `@` / `gimp_app` / `/System` / `/usr/lib` skips, starts with
the MacPorts prefix and ends in `.dylib`. -/
def walkCopies (P : Params) (dep : String) : Bool :=
  if sStarts dep "@" then false
  else if sStarts dep P.gimpApp then false
  else if sStarts dep "/System" || sStarts dep "/usr/lib" then false
  else sStarts dep P.mp && sEnds dep ".dylib"

/-- Result of processing the dependency list of one queue item: the
filesystem after the copies, the destinations appended to the queue, and
the `(source, destination)` pairs actually copied. -/
structure StepOut where
  fs : Fs
  newQ : List String
  log : List (String × String)
deriving DecidableEq, Repr

/-- One iteration of the walk body over `otool_deps(item)` (lines
157-171): each surviving dependency whose destination does not yet exist
is copied to `Frameworks/lib` and enqueued. -/
def stepDeps (P : Params) (fs : Fs) : List String → StepOut
  | [] => ⟨fs, [], []⟩
  | dep :: rest =>
    if walkCopies P dep then
      if pExists fs (libdst P dep) then stepDeps P fs rest
      else
        let r := stepDeps P (copy2 fs dep (libdst P dep)) rest
        ⟨r.fs, libdst P dep :: r.newQ, (dep, libdst P dep) :: r.log⟩
    else stepDeps P fs rest

/-- Result of the whole walk: final filesystem, the copies performed (in
order), and the `(item, dependency)` pairs examined (in order). -/
structure WalkOut where
  fs : Fs
  log : List (String × String)
  dlog : List (String × String)
deriving DecidableEq, Repr

/-- The `while queue:` loop (lines 156-171), processed first-in
first-out, with an explicit fuel bound (`none` = fuel exhausted; the
script's loop is unbounded, and termination is proved separately).  The
`seen` set of the source is write-only and therefore not modelled. -/
def walk (P : Params) : Nat → Fs → List String → Option WalkOut
  | 0, fs, q => if q.isEmpty then some ⟨fs, [], []⟩ else none
  | _ + 1, fs, [] => some ⟨fs, [], []⟩
  | n + 1, fs, item :: q =>
    let deps := machoDeps fs item
    let r := stepDeps P fs deps
    match walk P n r.fs (q ++ r.newQ) with
    | none => none
    | some w => some ⟨w.fs, r.log ++ w.log, deps.map (fun d => (item, d)) ++ w.dlog⟩

-- ── Rewriting phases (lines 109-131, 144-149, 177-218) ───────────────────

/-- Apply an update to the Mach-O record at `p` (no-op when `p` does not
hold a Mach-O entry; `install_name_tool` is only invoked by the script on
binaries). -/
def modifyMacho (fs : Fs) (p : String) (f : MachO → MachO) : Fs :=
  match fsGet fs p with
  | some (.macho m) => fsSet fs p (.macho (f m))
  | _ => fs

def setIdAt (fs : Fs) (p : String) (newId : String) : Fs :=
  modifyMacho fs p (fun m => set_id m newId)

def addRpathAt (fs : Fs) (p : String) (rpath : String) : Fs :=
  modifyMacho fs p (fun m => (add_rpath_if_missing m rpath).1)

/-- `install_name_tool -change old new` on a dependency list: every load
command equal to `old` becomes `new`. -/
def applyChange (deps : List String) (old new : String) : List String :=
  deps.map (fun d => if d = old then new else d)

/-- The per-dependency decision of the remap loop (lines 188-205): the
replacement installed by `install_name_tool -change`, or `none` when the
dependency is left alone. -/
def remapDep (P : Params) (dep : String) : Option String :=
  if sStarts dep "@" then none
  else if sStarts dep P.gimpApp || sStarts dep "/System" || sStarts dep "/usr/lib" then
    none
  else if sStarts dep P.mp then
    if sContains dep ".framework/" then
      if pyTruthy (framework_name dep) then
        some ("@rpath/" ++ (framework_name dep).getD "" ++ ".framework/Versions/5/"
          ++ (framework_name dep).getD "")
      else none
    else if sEnds dep ".dylib" then some ("@rpath/lib/" ++ baseName dep)
    else none
  else none

/-- The remap loop body for one binary: iterate over the dependency list
reported before any change, issuing one `-change` per qualifying entry. -/
def remapBinary (P : Params) (orig : List String) : List String :=
  orig.foldl
    (fun cur dep =>
      match remapDep P dep with
      | some n => applyChange cur dep n
      | none => cur)
    orig

/-- The effect of the remap loop on one dependency-list element: the
element is substituted whenever the currently processed original
dependency equals it and qualifies for a change. -/
def remapStep (P : Params) (y dep : String) : String :=
  match remapDep P dep with
  | some n => if y = dep then n else y
  | none => y

/-- One iteration body of the framework-copy loop: remove an existing
destination, then copy the source framework tree. -/
def qtStep (P : Params) (fs : Fs) (name : String) : Fs :=
  copyTree (if pExists fs (qtFwDst P name) then rmTree fs (qtFwDst P name) else fs)
    (qtFwSrc P name) (qtFwDst P name)

/-- Lines 109-118: copy each Qt framework, exiting with status 1 when a
source framework is missing; an existing destination is removed first. -/
def qtFwLoop (P : Params) (fs : Fs) : List String → Except Fs Fs
  | [] => .ok fs
  | name :: rest =>
    if !pExists fs (qtFwSrc P name) then .error fs
    else
      qtFwLoop P
        (copyTree
          (if pExists fs (qtFwDst P name) then rmTree fs (qtFwDst P name) else fs)
          (qtFwSrc P name) (qtFwDst P name))
        rest

def qtFwPhase (P : Params) (fs : Fs) : Except Fs Fs :=
  qtFwLoop P fs QT_FRAMEWORKS

/-- Lines 121-127: copy each existing Qt plugin subdirectory. -/
def qtPluginsPhase (P : Params) (fs : Fs) : Fs :=
  QT_PLUGIN_SUBDIRS.foldl
    (fun fs sub =>
      let src := P.qt ++ "/plugins/" ++ sub
      let dst := pluginsDirOf P ++ "/" ++ sub
      if pExists fs src then
        copyTree (if pExists fs dst then rmTree fs dst else fs) src dst
      else fs)
    fs

/-- Lines 130-131: write `qt.conf`. -/
def qtConfPhase (P : Params) (fs : Fs) : Fs :=
  fsSet fs (P.bundleDir ++ "/qt.conf")
    (.plain "[Paths]\nPlugins = Frameworks/plugins\n")

/-- Lines 88-92: create `Frameworks/`, `Frameworks/plugins`,
`Frameworks/lib`. -/
def mkdirPhase (P : Params) (fs : Fs) : Fs :=
  mkdirP (mkdirP (mkdirP fs (frameworksDirOf P)) (pluginsDirOf P)) (libDirOf P)

/-- Lines 133-142: the initial binary set (a Python `set`, modelled as a
duplicate-free list). -/
def initialBins (P : Params) (fs : Fs) : List String :=
  (P.pluginBin ::
    ((QT_FRAMEWORKS.filter (fun n => pExists fs (fwBinPath P n))).map (fwBinPath P)
      ++ rglobDylibs fs (pluginsDirOf P))).eraseDups

/-- Lines 144-149: copy each existing explicit library whose destination
does not yet exist. -/
def explicitPhase (P : Params) (fs : Fs) : Fs :=
  (explicit_libs P).foldl
    (fun fs src =>
      if pExists fs src then
        if pExists fs (libdst P src) then fs else copy2 fs src (libdst P src)
      else fs)
    fs

/-- Lines 177-184: set the install id of every `Frameworks/lib/*.dylib`
and of every existing bundled framework binary. -/
def setIdsPhase (P : Params) (fs : Fs) : Fs :=
  QT_FRAMEWORKS.foldl
    (fun fs n =>
      if pExists fs (fwBinPath P n) then
        setIdAt fs (fwBinPath P n) ("@rpath/" ++ n ++ ".framework/Versions/5/" ++ n)
      else fs)
    ((globDylibs fs (libDirOf P)).foldl
      (fun fs p => setIdAt fs p ("@rpath/lib/" ++ baseName p)) fs)

/-- Lines 186-205: remap the dependency load commands of every binary in
the processed set. -/
def remapPhase (P : Params) (fs : Fs) (bins : List String) : Fs :=
  bins.foldl (fun fs b => modifyMacho fs b (fun m => { m with deps := remapBinary P m.deps })) fs

/-- Lines 207-218: add the runtime search paths. -/
def rpathPhase (P : Params) (fs : Fs) : Fs :=
  let fs1 := addRpathAt fs P.pluginBin "@loader_path/Frameworks"
  let fs2 := addRpathAt fs1 P.pluginBin (P.gimpApp ++ "/Contents/Resources")
  let fs3 := (rglobDylibs fs2 (pluginsDirOf P)).foldl
    (fun fs p =>
      addRpathAt (addRpathAt fs p "@loader_path/../..") p "@executable_path/../Frameworks")
    fs2
  QT_FRAMEWORKS.foldl
    (fun fs n =>
      if pExists fs (fwBinPath P n) then addRpathAt fs (fwBinPath P n) "@loader_path/../../.."
      else fs)
    fs3

-- ── The whole `bundle` function ──────────────────────────────────────────

/-- Observable outcome of a completed run: the final filesystem, the
processed binary set at remap time, and (ghost observations) the copies
and dependency examinations of the walk. -/
structure BundleOut where
  fs : Fs
  processed : List String
  walkLog : List (String × String)
  walkDeps : List (String × String)
deriving DecidableEq, Repr

inductive BundleResult where
  | ok (out : BundleOut)
  | exited (code : Nat) (fs : Fs)
deriving DecidableEq, Repr

/-- `bundle` (lines 77-218), with the walk bounded by `fuel` (`none` =
fuel exhausted; termination is proved separately). -/
def bundle (P : Params) (fuel : Nat) (fs0 : Fs) : Option BundleResult :=
  if !isDirAt fs0 P.bundleDir || !pExists fs0 P.pluginBin then
    some (.exited 1 fs0)
  else
    match qtFwPhase P (mkdirPhase P fs0) with
    | .error fsE => some (.exited 1 fsE)
    | .ok fs2 =>
      match walk P fuel (explicitPhase P (qtConfPhase P (qtPluginsPhase P fs2)))
          (initialBins P (qtConfPhase P (qtPluginsPhase P fs2))) with
      | none => none
      | some w =>
        some (.ok ⟨rpathPhase P (remapPhase P (setIdsPhase P w.fs)
            ((initialBins P (qtConfPhase P (qtPluginsPhase P fs2)) ++
              globDylibs w.fs (libDirOf P)).eraseDups)),
          (initialBins P (qtConfPhase P (qtPluginsPhase P fs2)) ++
            globDylibs w.fs (libDirOf P)).eraseDups, w.log, w.dlog⟩)


/-- The effect of one `install_name_tool -add_rpath` guarded by the
`otool -l` check: append the rpath unless present. -/
def pyAdd (l : List String) (r : String) : List String :=
  if r ∈ l then l else l ++ [r]

-- ── A concrete configuration (used for witnesses and counterexamples) ────

/-- A concrete bundle directory with no Qt frameworks installed. -/
def fs0b : Fs := [("/b", .dir), ("/b/p", .macho ⟨"", [], []⟩)]


/-- Concrete parameters for witness runs. -/
def Pc : Params := ⟨"/b", "/b/p", "/q", "/g", "/m"⟩

/-- A source Qt framework containing just its framework binary. -/
def fwEntry (n : String) : String × Entry :=
  ("/q/lib/" ++ n ++ ".framework/Versions/5/" ++ n,
   .macho ⟨"/q/lib/" ++ n ++ ".framework/Versions/5/" ++ n, [], []⟩)

/-- A concrete starting filesystem: the bundle directory with the plugin
binary, the six source Qt frameworks, and two MacPorts dylibs sharing the
basename `x.dylib`; the plugin binary also depends on a MacPorts `.so`
and a system library. -/
def fs0c : Fs :=
  [("/b", .dir),
   ("/b/p", .macho ⟨"", ["/m/a/x.dylib", "/m/b/x.dylib", "/m/lib/y.so",
     "/usr/lib/libSystem.B.dylib"], []⟩),
   fwEntry "QtCore", fwEntry "QtGui", fwEntry "QtWidgets", fwEntry "QtNetwork",
   fwEntry "QtDBus", fwEntry "QtPrintSupport",
   ("/m/a/x.dylib", .macho ⟨"/m/a/x.dylib", [], []⟩),
   ("/m/b/x.dylib", .macho ⟨"/m/b/x.dylib", [], []⟩)]

def exceptFs : Except Fs Fs → Fs
  | .ok fs => fs
  | .error fs => fs

/-- The concrete filesystem after the Qt framework phase. -/
def fs2c : Fs := exceptFs (qtFwPhase Pc (mkdirPhase Pc fs0c))

/-- The concrete filesystem right before the explicit-library copies. -/
def fs4c : Fs :=
  qtConfPhase Pc (qtPluginsPhase Pc (exceptFs (qtFwPhase Pc (mkdirPhase Pc fs0c))))

/-- The concrete filesystem at the start of the walk. -/
def fs5c : Fs := explicitPhase Pc fs4c

/-- The concrete initial queue of the walk. -/
def binsc : List String := initialBins Pc fs4c

/-- The concrete walk result. -/
def wc : WalkOut :=
  match walk Pc 12 fs5c binsc with
  | some w => w
  | none => ⟨[], [], []⟩

/-- The concrete completed bundle run. -/
def outc : BundleOut :=
  match bundle Pc 20 fs0c with
  | some (.ok o) => o
  | _ => ⟨[], [], [], []⟩

/-- Every Mach-O entry's filtered dependencies point at existing entries
and have basenames inside `univ`. -/
def valsOk (P : Params) (univ : List String) (fs : Fs) : Prop :=
  ∀ p m, fsGet fs p = some (.macho m) → ∀ d ∈ m.deps, walkCopies P d = true →
    (fsGet fs d).isSome = true ∧ baseName d ∈ univ

/-- Decidable well-formedness of a filesystem for the walk: every
filtered dependency of a Mach-O entry exists (the real script would
crash in `shutil.copy2` otherwise). -/
def depsExistB (P : Params) (fs : Fs) : Bool :=
  fs.all (fun x =>
    match x.2 with
    | .macho m => m.deps.all (fun d => !walkCopies P d || (fsGet fs d).isSome)
    | _ => true)

/-- The basenames of all filtered dependencies of Mach-O entries. -/
def depUniv (P : Params) (fs : Fs) : List String :=
  (fs.filterMap (fun x =>
    match x.2 with
    | .macho m => some (m.deps.filter (walkCopies P))
    | _ => none)).flatten.map baseName

/-- Number of `univ` basenames whose destination in `Frameworks/lib` does
not exist yet. -/
def countFresh (P : Params) (univ : List String) (fs : Fs) : Nat :=
  (univ.filter (fun b => !pExists fs (libDirOf P ++ "/" ++ b))).length

-- ── Basic lemmas about the filesystem model ──────────────────────────────

theorem sStarts_iff {s t : String} : sStarts s t = true ↔ t.data <+: s.data := by
  simp [sStarts, List.isPrefixOf_iff_prefix]

theorem fsGet_fsSet_self (fs : Fs) (p : String) (e : Entry) :
    fsGet (fsSet fs p e) p = some e := by
  simp [fsGet, fsSet, List.find?]

theorem find?_filter_ne (fs : Fs) (p q : String) (h : q ≠ p) :
    (fs.filter (fun x => x.1 != p)).find? (fun x => x.1 == q) =
      fs.find? (fun x => x.1 == q) := by
  induction fs with
  | nil => rfl
  | cons a t ih =>
    by_cases hap : a.1 = p
    · have h1 : (a.1 != p) = false := by simp [hap]
      have h2 : (a.1 == q) = false := by
        apply beq_eq_false_iff_ne.mpr
        rw [hap]
        exact Ne.symm h
      simp [List.filter_cons, h1, List.find?_cons, h2, ih]
    · have h1 : (a.1 != p) = true := by simp [hap]
      by_cases haq : a.1 = q
      · have h2 : (a.1 == q) = true := beq_iff_eq.mpr haq
        simp [List.filter_cons, h1, List.find?_cons, h2]
      · have h2 : (a.1 == q) = false := beq_eq_false_iff_ne.mpr haq
        simp [List.filter_cons, h1, List.find?_cons, h2, ih]

theorem fsGet_fsSet_ne (fs : Fs) (p q : String) (e : Entry) (h : q ≠ p) :
    fsGet (fsSet fs p e) q = fsGet fs q := by
  have hne : (p == q) = false := by
    simp [beq_iff_eq]; exact fun hc => h hc.symm
  simp [fsGet, fsSet, List.find?, hne, find?_filter_ne fs p q h]

theorem pExists_of_fsGet {fs : Fs} {p : String} {e : Entry}
    (h : fsGet fs p = some e) : pExists fs p = true := by
  unfold fsGet at h
  rcases hf : fs.find? (fun x => x.1 == p) with _ | y
  · rw [hf] at h; simp at h
  · have hy0 := List.find?_some hf
    have hy : (y.1 == p) = true := hy0
    have hmem := List.mem_of_find?_eq_some hf
    refine List.any_eq_true.mpr ⟨y, hmem, ?_⟩
    simp [hy]

theorem fsGet_eq_none_of_not_pExists {fs : Fs} {p : String}
    (h : pExists fs p = false) : fsGet fs p = none := by
  rcases he : fsGet fs p with _ | e
  · rfl
  · exact absurd (pExists_of_fsGet he) (by simp [h])

/-- `fsSet` preserves any path-predicate witness (`pExists`-style). -/
theorem any_path_fsSet (pr : String → Bool) {fs : Fs}
    (h : fs.any (fun x => pr x.1) = true) (p : String) (e : Entry) :
    (fsSet fs p e).any (fun x => pr x.1) = true := by
  rcases List.any_eq_true.mp h with ⟨y, hy, hpy⟩
  by_cases hyp : y.1 = p
  · exact List.any_eq_true.mpr ⟨(p, e), by simp [fsSet], by simpa [hyp] using hpy⟩
  · refine List.any_eq_true.mpr ⟨y, ?_, hpy⟩
    simp only [fsSet, List.mem_cons, List.mem_filter]
    exact Or.inr ⟨hy, by simp [hyp]⟩

theorem pExists_fsSet_mono {fs : Fs} {x : String}
    (h : pExists fs x = true) (p : String) (e : Entry) :
    pExists (fsSet fs p e) x = true := by
  unfold pExists at h ⊢
  exact any_path_fsSet (fun s => s == x || sStarts s (x ++ "/")) h p e

theorem pExists_copy2_mono {fs : Fs} {x : String}
    (h : pExists fs x = true) (src dst : String) :
    pExists (copy2 fs src dst) x = true := by
  unfold copy2
  rcases fsGet fs src with _ | e
  · exact h
  · exact pExists_fsSet_mono h dst e

theorem fsGet_copy2_of_fresh {fs : Fs} {x src dst : String} {e : Entry}
    (h : fsGet fs x = some e) (hfresh : pExists fs dst = false) :
    fsGet (copy2 fs src dst) x = some e := by
  unfold copy2
  rcases fsGet fs src with _ | e'
  · exact h
  · have hne : x ≠ dst := by
      intro hx
      rw [hx] at h
      exact absurd (pExists_of_fsGet h) (by simp [hfresh])
    rw [fsGet_fsSet_ne fs dst x e' hne]; exact h

-- ── C7: the string processing of otool -L output ─────────────────────────

theorem foldl_append_map {α β : Type} (l : List α) (f : α → β) (acc : List β) :
    l.foldl (fun ds x => ds ++ [f x]) acc = acc ++ l.map f := by
  induction l generalizing acc with
  | nil => simp
  | cons a t ih => simp [List.foldl_cons, ih]

/-- C7: `otool_deps` skips the first line of the `otool -L` output and
returns, for each remaining line in order, the stripped line's prefix up
to the first space — exactly one entry per non-header line. -/
theorem otool_deps_per_line (out : String) :
    otool_deps out = ((pySplitlines out).drop 1).map (fun l => firstField (pyStrip l)) ∧
    (otool_deps out).length = (pySplitlines out).length - 1 := by
  have h : otool_deps out =
      ((pySplitlines out).drop 1).map (fun l => firstField (pyStrip l)) := by
    unfold otool_deps
    simpa using foldl_append_map ((pySplitlines out).drop 1) (fun l => firstField (pyStrip l)) []
  exact ⟨h, by simp [h]⟩

-- ── C8: the early-exit check of bundle ───────────────────────────────────

/-- C8: when `bundle_dir` is not a directory or `plugin_bin` does not
exist, `bundle` exits with status 1 before performing any filesystem
mutation: the filesystem it exits with is exactly the input one. -/
theorem bundle_precheck_exit (P : Params) (fuel : Nat) (fs : Fs)
    (h : isDirAt fs P.bundleDir = false ∨ pExists fs P.pluginBin = false) :
    bundle P fuel fs = some (.exited 1 fs) := by
  unfold bundle
  rcases h with h | h <;> simp [h]

theorem bundle_precheck_exit_inst :
    (isDirAt [] (Params.mk "/b" "/b/p" "/q" "/g" "/m").bundleDir = false ∨
      pExists [] (Params.mk "/b" "/b/p" "/q" "/g" "/m").pluginBin = false) ∧
    bundle (Params.mk "/b" "/b/p" "/q" "/g" "/m") 5 [] = some (.exited 1 []) :=
  ⟨Or.inl (by decide),
   bundle_precheck_exit (Params.mk "/b" "/b/p" "/q" "/g" "/m") 5 [] (Or.inl (by decide))⟩

-- ── C10: idempotence of add_rpath_if_missing ─────────────────────────────

/-- C10: when the rpath is already present, `add_rpath_if_missing`
invokes no `install_name_tool` call and leaves the binary unchanged; and
a second call with the same arguments invokes nothing and returns the
first call's result, so calling it twice equals calling it once. -/
theorem add_rpath_idempotent (m : MachO) (r : String) :
    (r ∈ m.rpaths → add_rpath_if_missing m r = (m, false)) ∧
    add_rpath_if_missing (add_rpath_if_missing m r).1 r =
      ((add_rpath_if_missing m r).1, false) := by
  constructor
  · intro h; simp [add_rpath_if_missing, h]
  · by_cases h : r ∈ m.rpaths
    · simp [add_rpath_if_missing, h]
    · have : r ∈ m.rpaths ++ [r] := by simp
      simp [add_rpath_if_missing, h, this]

theorem add_rpath_idempotent_inst :
    add_rpath_if_missing (MachO.mk "" [] ["/a"]) "/a" = (MachO.mk "" [] ["/a"], false) :=
  (add_rpath_idempotent (MachO.mk "" [] ["/a"]) "/a").1 (by decide)

-- ── Unfolding equations for stepDeps and walk ────────────────────────────

theorem stepDeps_nil (P : Params) (fs : Fs) : stepDeps P fs [] = ⟨fs, [], []⟩ := rfl

theorem stepDeps_cons_skip (P : Params) (fs : Fs) (dep : String) (rest : List String)
    (h : walkCopies P dep = false) :
    stepDeps P fs (dep :: rest) = stepDeps P fs rest := by
  simp [stepDeps, h]

theorem stepDeps_cons_exists (P : Params) (fs : Fs) (dep : String) (rest : List String)
    (h : walkCopies P dep = true) (h2 : pExists fs (libdst P dep) = true) :
    stepDeps P fs (dep :: rest) = stepDeps P fs rest := by
  simp [stepDeps, h, h2]

theorem stepDeps_cons_copy (P : Params) (fs : Fs) (dep : String) (rest : List String)
    (h : walkCopies P dep = true) (h2 : pExists fs (libdst P dep) = false) :
    stepDeps P fs (dep :: rest) =
      ⟨(stepDeps P (copy2 fs dep (libdst P dep)) rest).fs,
       libdst P dep :: (stepDeps P (copy2 fs dep (libdst P dep)) rest).newQ,
       (dep, libdst P dep) :: (stepDeps P (copy2 fs dep (libdst P dep)) rest).log⟩ := by
  simp [stepDeps, h, h2]

theorem walk_zero (P : Params) (fs : Fs) (q : List String) :
    walk P 0 fs q = if q.isEmpty then some ⟨fs, [], []⟩ else none := rfl

theorem walk_succ_nil (P : Params) (n : Nat) (fs : Fs) :
    walk P (n + 1) fs [] = some ⟨fs, [], []⟩ := rfl

theorem walk_succ_cons (P : Params) (n : Nat) (fs : Fs) (item : String) (q : List String) :
    walk P (n + 1) fs (item :: q) =
      match walk P n (stepDeps P fs (machoDeps fs item)).fs
          (q ++ (stepDeps P fs (machoDeps fs item)).newQ) with
      | none => none
      | some w => some ⟨w.fs, (stepDeps P fs (machoDeps fs item)).log ++ w.log,
          (machoDeps fs item).map (fun d => (item, d)) ++ w.dlog⟩ := rfl

-- ── Preservation lemmas for the walk ─────────────────────────────────────

theorem fsGet_fsSet_of_fresh {fs : Fs} {x dst : String} {e e' : Entry}
    (hfresh : pExists fs dst = false) (h : fsGet fs x = some e') :
    fsGet (fsSet fs dst e) x = some e' := by
  have hne : x ≠ dst := by
    intro hx
    rw [hx] at h
    exact absurd (pExists_of_fsGet h) (by simp [hfresh])
  rw [fsGet_fsSet_ne fs dst x e hne]; exact h

theorem stepDeps_get_mono (P : Params) (deps : List String) :
    ∀ {fs : Fs} {p : String} {e : Entry}, fsGet fs p = some e →
      fsGet (stepDeps P fs deps).fs p = some e := by
  induction deps with
  | nil => intro fs p e h; rw [stepDeps_nil]; exact h
  | cons dep rest ih =>
    intro fs p e h
    cases hw : walkCopies P dep with
    | false => rw [stepDeps_cons_skip P fs dep rest hw]; exact ih h
    | true =>
      cases hex : pExists fs (libdst P dep) with
      | true => rw [stepDeps_cons_exists P fs dep rest hw hex]; exact ih h
      | false =>
        rw [stepDeps_cons_copy P fs dep rest hw hex]
        exact ih (fsGet_copy2_of_fresh h hex)

theorem stepDeps_pExists_mono (P : Params) (deps : List String) :
    ∀ {fs : Fs} {p : String}, pExists fs p = true →
      pExists (stepDeps P fs deps).fs p = true := by
  induction deps with
  | nil => intro fs p h; rw [stepDeps_nil]; exact h
  | cons dep rest ih =>
    intro fs p h
    cases hw : walkCopies P dep with
    | false => rw [stepDeps_cons_skip P fs dep rest hw]; exact ih h
    | true =>
      cases hex : pExists fs (libdst P dep) with
      | true => rw [stepDeps_cons_exists P fs dep rest hw hex]; exact ih h
      | false =>
        rw [stepDeps_cons_copy P fs dep rest hw hex]
        exact ih (pExists_copy2_mono h dep (libdst P dep))

theorem walk_get_mono (P : Params) :
    ∀ (n : Nat) {fs : Fs} {q : List String} {w : WalkOut}, walk P n fs q = some w →
      ∀ {p : String} {e : Entry}, fsGet fs p = some e → fsGet w.fs p = some e := by
  intro n
  induction n with
  | zero =>
    intro fs q w hw p e h
    rw [walk_zero] at hw
    rcases hq : q.isEmpty with _ | _
    · rw [hq] at hw; simp at hw
    · rw [hq] at hw
      simp at hw
      rw [← hw]
      exact h
  | succ n ih =>
    intro fs q w hw p e h
    cases q with
    | nil =>
      rw [walk_succ_nil] at hw
      simp at hw
      rw [← hw]
      exact h
    | cons item q' =>
      rw [walk_succ_cons] at hw
      rcases hrec : walk P n (stepDeps P fs (machoDeps fs item)).fs
          (q' ++ (stepDeps P fs (machoDeps fs item)).newQ) with _ | w'
      · rw [hrec] at hw; simp at hw
      · rw [hrec] at hw
        simp at hw
        have := ih hrec (stepDeps_get_mono P (machoDeps fs item) h)
        rw [← hw]
        exact this

theorem walk_pExists_mono (P : Params) :
    ∀ (n : Nat) {fs : Fs} {q : List String} {w : WalkOut}, walk P n fs q = some w →
      ∀ {p : String}, pExists fs p = true → pExists w.fs p = true := by
  intro n
  induction n with
  | zero =>
    intro fs q w hw p h
    rw [walk_zero] at hw
    rcases hq : q.isEmpty with _ | _
    · rw [hq] at hw; simp at hw
    · rw [hq] at hw; simp at hw; rw [← hw]; exact h
  | succ n ih =>
    intro fs q w hw p h
    cases q with
    | nil => rw [walk_succ_nil] at hw; simp at hw; rw [← hw]; exact h
    | cons item q' =>
      rw [walk_succ_cons] at hw
      rcases hrec : walk P n (stepDeps P fs (machoDeps fs item)).fs
          (q' ++ (stepDeps P fs (machoDeps fs item)).newQ) with _ | w'
      · rw [hrec] at hw; simp at hw
      · rw [hrec] at hw
        simp at hw
        have := ih hrec (stepDeps_pExists_mono P (machoDeps fs item) h)
        rw [← hw]
        exact this

-- ── Walk soundness: every copy passes the filter ─────────────────────────

theorem stepDeps_log_sound (P : Params) (deps : List String) :
    ∀ {fs : Fs}, ∀ sd ∈ (stepDeps P fs deps).log,
      walkCopies P sd.1 = true ∧ sd.2 = libdst P sd.1 := by
  induction deps with
  | nil => intro fs sd hsd; rw [stepDeps_nil] at hsd; simp at hsd
  | cons dep rest ih =>
    intro fs sd hsd
    cases hw : walkCopies P dep with
    | false => rw [stepDeps_cons_skip P fs dep rest hw] at hsd; exact ih sd hsd
    | true =>
      cases hex : pExists fs (libdst P dep) with
      | true => rw [stepDeps_cons_exists P fs dep rest hw hex] at hsd; exact ih sd hsd
      | false =>
        rw [stepDeps_cons_copy P fs dep rest hw hex] at hsd
        rcases List.mem_cons.mp hsd with h | h
        · rw [h]; exact ⟨hw, rfl⟩
        · exact ih sd h

theorem walk_log_sound (P : Params) :
    ∀ (n : Nat) {fs : Fs} {q : List String} {w : WalkOut}, walk P n fs q = some w →
      ∀ sd ∈ w.log, walkCopies P sd.1 = true ∧ sd.2 = libdst P sd.1 := by
  intro n
  induction n with
  | zero =>
    intro fs q w hw sd hsd
    rw [walk_zero] at hw
    rcases hq : q.isEmpty with _ | _
    · rw [hq] at hw; simp at hw
    · rw [hq] at hw; simp at hw; rw [← hw] at hsd; simp at hsd
  | succ n ih =>
    intro fs q w hw sd hsd
    cases q with
    | nil => rw [walk_succ_nil] at hw; simp at hw; rw [← hw] at hsd; simp at hsd
    | cons item q' =>
      rw [walk_succ_cons] at hw
      rcases hrec : walk P n (stepDeps P fs (machoDeps fs item)).fs
          (q' ++ (stepDeps P fs (machoDeps fs item)).newQ) with _ | w'
      · rw [hrec] at hw; simp at hw
      · rw [hrec] at hw
        simp at hw
        rw [← hw] at hsd
        simp only [List.mem_append] at hsd
        rcases hsd with h | h
        · exact stepDeps_log_sound P (machoDeps fs item) sd h
        · exact ih hrec sd h

-- ── Walk invariant: filtered dependencies of binaries have sources ───────

theorem fsGet_mem {fs : Fs} {p : String} {e : Entry} (h : fsGet fs p = some e) :
    (p, e) ∈ fs := by
  unfold fsGet at h
  rcases hf : fs.find? (fun x => x.1 == p) with _ | y
  · rw [hf] at h; simp at h
  · rw [hf] at h
    simp at h
    have h1 := List.find?_some hf
    have h2 : (y.1 == p) = true := h1
    have h3 : y.1 = p := beq_iff_eq.mp h2
    have h4 := List.mem_of_find?_eq_some hf
    have : y = (p, e) := by
      rcases y with ⟨y1, y2⟩
      simp at h3 h
      rw [h3, h]
    rw [← this]
    exact h4

theorem valsOk_of_depsExistB (P : Params) (fs : Fs) (h : depsExistB P fs = true) :
    valsOk P (depUniv P fs) fs := by
  intro p m hp d hd hc
  have hmem := fsGet_mem hp
  constructor
  · have := List.all_eq_true.mp h (p, .macho m) hmem
    simp only at this
    have h2 := List.all_eq_true.mp this d hd
    rcases ho : (fsGet fs d).isSome with _ | _
    · rw [hc, ho] at h2; simp at h2
    · rfl
  · unfold depUniv
    refine List.mem_map.mpr ⟨d, ?_, rfl⟩
    refine List.mem_flatten.mpr ⟨m.deps.filter (walkCopies P), ?_, ?_⟩
    · exact List.mem_filterMap.mpr ⟨(p, .macho m), hmem, rfl⟩
    · exact List.mem_filter.mpr ⟨hd, hc⟩

theorem valsOk_fsSet_dup (P : Params) (univ : List String) {fs : Fs} {src dst : String}
    {e : Entry} (hv : valsOk P univ fs) (hs : fsGet fs src = some e)
    (hfresh : pExists fs dst = false) :
    valsOk P univ (fsSet fs dst e) := by
  intro p m hp d hd hc
  by_cases hpd : p = dst
  · subst hpd
    rw [fsGet_fsSet_self] at hp
    have he : e = .macho m := by injection hp
    rw [he] at hs
    rcases hv src m hs d hd hc with ⟨h1, h2⟩
    rcases ho : fsGet fs d with _ | e'
    · rw [ho] at h1; simp at h1
    · exact ⟨by rw [fsGet_fsSet_of_fresh hfresh ho]; rfl, h2⟩
  · rw [fsGet_fsSet_ne fs dst p e hpd] at hp
    rcases hv p m hp d hd hc with ⟨h1, h2⟩
    rcases ho : fsGet fs d with _ | e'
    · rw [ho] at h1; simp at h1
    · exact ⟨by rw [fsGet_fsSet_of_fresh hfresh ho]; rfl, h2⟩

theorem valsOk_copy2 (P : Params) (univ : List String) {fs : Fs} {src dst : String}
    (hv : valsOk P univ fs) (hfresh : pExists fs dst = false) :
    valsOk P univ (copy2 fs src dst) := by
  unfold copy2
  rcases hs : fsGet fs src with _ | e
  · exact hv
  · exact valsOk_fsSet_dup P univ hv hs hfresh

theorem stepDeps_valsOk (P : Params) (univ : List String) (deps : List String) :
    ∀ {fs : Fs}, valsOk P univ fs → valsOk P univ (stepDeps P fs deps).fs := by
  induction deps with
  | nil => intro fs hv; rw [stepDeps_nil]; exact hv
  | cons dep rest ih =>
    intro fs hv
    cases hw : walkCopies P dep with
    | false => rw [stepDeps_cons_skip P fs dep rest hw]; exact ih hv
    | true =>
      cases hex : pExists fs (libdst P dep) with
      | true => rw [stepDeps_cons_exists P fs dep rest hw hex]; exact ih hv
      | false =>
        rw [stepDeps_cons_copy P fs dep rest hw hex]
        exact ih (valsOk_copy2 P univ hv hex)

-- ── Termination measure of the walk ──────────────────────────────────────

theorem filter_length_mono_of_imp {α : Type} (l : List α) (p q : α → Bool)
    (h : ∀ a, q a = true → p a = true) :
    (l.filter q).length ≤ (l.filter p).length := by
  induction l with
  | nil => simp
  | cons a t ih =>
    cases hq : q a with
    | true =>
      have hp := h a hq
      simp [List.filter_cons, hq, hp]
      omega
    | false =>
      cases hp : p a with
      | true => simp [List.filter_cons, hq, hp]; omega
      | false => simp [List.filter_cons, hq, hp]; omega

theorem filter_length_succ_le {α : Type} (l : List α) (p q : α → Bool) (x : α)
    (hx : x ∈ l) (himp : ∀ a, q a = true → p a = true)
    (hpx : p x = true) (hqx : q x = false) :
    (l.filter q).length + 1 ≤ (l.filter p).length := by
  induction l with
  | nil => simp at hx
  | cons a t ih =>
    by_cases hax : a = x
    · subst hax
      have hmono := filter_length_mono_of_imp t p q himp
      simp [List.filter_cons, hpx, hqx]
      omega
    · have hxt : x ∈ t := by
        rcases List.mem_cons.mp hx with h | h
        · exact absurd h.symm hax
        · exact h
      have hiht := ih hxt
      cases hq : q a with
      | true =>
        have hp := himp a hq
        simp [List.filter_cons, hq, hp]
        omega
      | false =>
        cases hp : p a with
        | true =>
          simp [List.filter_cons, hq, hp]
          omega
        | false => simp [List.filter_cons, hq, hp]; omega

theorem pExists_copy2_self {fs : Fs} {src dst : String} {e : Entry}
    (hs : fsGet fs src = some e) : pExists (copy2 fs src dst) dst = true := by
  unfold copy2
  rw [hs]
  exact pExists_of_fsGet (fsGet_fsSet_self fs dst e)

theorem stepDeps_count (P : Params) (univ : List String) (deps : List String) :
    ∀ {fs : Fs},
      (∀ d ∈ deps, walkCopies P d = true →
        (fsGet fs d).isSome = true ∧ baseName d ∈ univ) →
      (stepDeps P fs deps).newQ.length + countFresh P univ (stepDeps P fs deps).fs ≤
        countFresh P univ fs := by
  induction deps with
  | nil => intro fs _; rw [stepDeps_nil]; simp
  | cons dep rest ih =>
    intro fs hdeps
    have hdrest : ∀ d ∈ rest, walkCopies P d = true →
        (fsGet fs d).isSome = true ∧ baseName d ∈ univ :=
      fun d hd hc => hdeps d (List.mem_cons_of_mem dep hd) hc
    cases hw : walkCopies P dep with
    | false => rw [stepDeps_cons_skip P fs dep rest hw]; exact ih hdrest
    | true =>
      cases hex : pExists fs (libdst P dep) with
      | true => rw [stepDeps_cons_exists P fs dep rest hw hex]; exact ih hdrest
      | false =>
        rw [stepDeps_cons_copy P fs dep rest hw hex]
        rcases hdeps dep (List.mem_cons_self dep rest) hw with ⟨hsome, huniv⟩
        rcases hg : fsGet fs dep with _ | e
        · rw [hg] at hsome; simp at hsome
        · have hcreated : pExists (copy2 fs dep (libdst P dep)) (libdst P dep) = true :=
            pExists_copy2_self hg
          have hrest' : ∀ d ∈ rest, walkCopies P d = true →
              (fsGet (copy2 fs dep (libdst P dep)) d).isSome = true ∧ baseName d ∈ univ := by
            intro d hd hc
            rcases hdrest d hd hc with ⟨h1, h2⟩
            rcases ho : fsGet fs d with _ | e'
            · rw [ho] at h1; simp at h1
            · exact ⟨by rw [fsGet_copy2_of_fresh ho hex]; rfl, h2⟩
          have hdrop : countFresh P univ (copy2 fs dep (libdst P dep)) + 1 ≤
              countFresh P univ fs := by
            refine filter_length_succ_le univ
              (fun b => !pExists fs (libDirOf P ++ "/" ++ b))
              (fun b => !pExists (copy2 fs dep (libdst P dep)) (libDirOf P ++ "/" ++ b))
              (baseName dep) huniv ?_ ?_ ?_
            · intro b hb
              have hb2 : (!pExists (copy2 fs dep (libdst P dep))
                  (libDirOf P ++ "/" ++ b)) = true := hb
              show (!pExists fs (libDirOf P ++ "/" ++ b)) = true
              cases hp : pExists fs (libDirOf P ++ "/" ++ b) with
              | false => rfl
              | true =>
                have hmono := pExists_copy2_mono hp dep (libdst P dep)
                rw [hmono] at hb2
                exact absurd hb2 (by simp)
            · show (!pExists fs (libDirOf P ++ "/" ++ baseName dep)) = true
              have heq : libDirOf P ++ "/" ++ baseName dep = libdst P dep := rfl
              rw [heq, hex]
              rfl
            · show (!pExists (copy2 fs dep (libdst P dep))
                  (libDirOf P ++ "/" ++ baseName dep)) = false
              have heq : libDirOf P ++ "/" ++ baseName dep = libdst P dep := rfl
              rw [heq, hcreated]
              rfl
          have hih := ih hrest'
          simp only [List.length_cons]
          omega

theorem machoDeps_ok (P : Params) (univ : List String) {fs : Fs}
    (hv : valsOk P univ fs) (item : String) :
    ∀ d ∈ machoDeps fs item, walkCopies P d = true →
      (fsGet fs d).isSome = true ∧ baseName d ∈ univ := by
  intro d hd hc
  unfold machoDeps at hd
  rcases hg : fsGet fs item with _ | e
  · rw [hg] at hd; simp at hd
  · rcases e with _ | m | c
    · rw [hg] at hd; simp at hd
    · rw [hg] at hd
      exact hv item m hg d hd hc
    · rw [hg] at hd; simp at hd

theorem walk_term (P : Params) (univ : List String) :
    ∀ (k : Nat) {fs : Fs} {q : List String}, valsOk P univ fs →
      q.length + countFresh P univ fs ≤ k → (walk P k fs q).isSome = true := by
  intro k
  induction k with
  | zero =>
    intro fs q hv hb
    have hq : q = [] := List.length_eq_zero.mp (by omega)
    subst hq
    rw [walk_zero]
    simp
  | succ k ih =>
    intro fs q hv hb
    cases q with
    | nil => rw [walk_succ_nil]; rfl
    | cons item q' =>
      rw [walk_succ_cons]
      have hstep := stepDeps_count P univ (machoDeps fs item) (machoDeps_ok P univ hv item)
      have hv' := stepDeps_valsOk P univ (machoDeps fs item) hv
      have hbound : (q' ++ (stepDeps P fs (machoDeps fs item)).newQ).length +
          countFresh P univ (stepDeps P fs (machoDeps fs item)).fs ≤ k := by
        simp only [List.length_append, List.length_cons] at hb ⊢
        omega
      have hrec := ih hv' hbound
      rcases hx : walk P k (stepDeps P fs (machoDeps fs item)).fs
          (q' ++ (stepDeps P fs (machoDeps fs item)).newQ) with _ | w
      · rw [hx] at hrec; simp at hrec
      · simp

-- ── Walk completeness: filtered dependencies end up in Frameworks/lib ────

theorem stepDeps_dst_exists (P : Params) (deps : List String) :
    ∀ {fs : Fs},
      (∀ d ∈ deps, walkCopies P d = true → (fsGet fs d).isSome = true) →
      ∀ d ∈ deps, walkCopies P d = true →
        pExists (stepDeps P fs deps).fs (libdst P d) = true := by
  induction deps with
  | nil => intro fs _ d hd; simp at hd
  | cons dep rest ih =>
    intro fs hdeps d hd hc
    have hdrest : ∀ x ∈ rest, walkCopies P x = true → (fsGet fs x).isSome = true :=
      fun x hx hcx => hdeps x (List.mem_cons_of_mem dep hx) hcx
    cases hw : walkCopies P dep with
    | false =>
      rw [stepDeps_cons_skip P fs dep rest hw]
      rcases List.mem_cons.mp hd with h | h
      · rw [h] at hc; rw [hc] at hw; simp at hw
      · exact ih hdrest d h hc
    | true =>
      cases hex : pExists fs (libdst P dep) with
      | true =>
        rw [stepDeps_cons_exists P fs dep rest hw hex]
        rcases List.mem_cons.mp hd with h | h
        · rw [h]; exact stepDeps_pExists_mono P rest hex
        · exact ih hdrest d h hc
      | false =>
        rw [stepDeps_cons_copy P fs dep rest hw hex]
        rcases hdeps dep (List.mem_cons_self dep rest) hw with hsome
        rcases hg : fsGet fs dep with _ | e
        · rw [hg] at hsome; simp at hsome
        · have hcreated := @pExists_copy2_self _ _ (libdst P dep) _ hg
          have hrest' : ∀ x ∈ rest, walkCopies P x = true →
              (fsGet (copy2 fs dep (libdst P dep)) x).isSome = true := by
            intro x hx hcx
            rcases ho : fsGet fs x with _ | e'
            · have := hdrest x hx hcx; rw [ho] at this; simp at this
            · rw [fsGet_copy2_of_fresh ho hex]; rfl
          rcases List.mem_cons.mp hd with h | h
          · rw [h]
            exact stepDeps_pExists_mono P rest hcreated
          · exact ih hrest' d h hc

theorem walk_complete (P : Params) (univ : List String) :
    ∀ (n : Nat) {fs : Fs} {q : List String} {w : WalkOut}, valsOk P univ fs →
      walk P n fs q = some w → ∀ pr ∈ w.dlog, walkCopies P pr.2 = true →
        pExists w.fs (libdst P pr.2) = true := by
  intro n
  induction n with
  | zero =>
    intro fs q w hv hw pr hpr
    rw [walk_zero] at hw
    rcases hq : q.isEmpty with _ | _
    · rw [hq] at hw; simp at hw
    · rw [hq] at hw; simp at hw; rw [← hw] at hpr; simp at hpr
  | succ n ih =>
    intro fs q w hv hw pr hpr hc
    cases q with
    | nil => rw [walk_succ_nil] at hw; simp at hw; rw [← hw] at hpr; simp at hpr
    | cons item q' =>
      rw [walk_succ_cons] at hw
      rcases hrec : walk P n (stepDeps P fs (machoDeps fs item)).fs
          (q' ++ (stepDeps P fs (machoDeps fs item)).newQ) with _ | w'
      · rw [hrec] at hw; simp at hw
      · rw [hrec] at hw
        simp at hw
        rw [← hw] at hpr
        simp only [List.mem_append] at hpr
        have hwfs : w.fs = w'.fs := by rw [← hw]
        rcases hpr with h | h
        · rcases List.mem_map.mp h with ⟨d, hd, hpd⟩
          have hsome : (fsGet fs d).isSome = true := by
            rcases machoDeps_ok P univ hv item d hd (by rw [← hpd] at hc; exact hc) with ⟨h1, _⟩
            exact h1
          have hstep := stepDeps_dst_exists P (machoDeps fs item)
            (fun x hx hcx => (machoDeps_ok P univ hv item x hx hcx).1) d hd
            (by rw [← hpd] at hc; exact hc)
          have := walk_pExists_mono P n hrec hstep
          rw [hwfs, ← hpd]
          exact this
        · have hv' := stepDeps_valsOk P univ (machoDeps fs item) hv
          have := ih hv' hrec pr h hc
          rw [hwfs]
          exact this

-- ── Walk freshness and no-duplicate-destination lemmas ───────────────────

theorem stepDeps_log_fresh (P : Params) (deps : List String) :
    ∀ {fs : Fs}, ∀ sd ∈ (stepDeps P fs deps).log, pExists fs sd.2 = false := by
  induction deps with
  | nil => intro fs sd hsd; rw [stepDeps_nil] at hsd; simp at hsd
  | cons dep rest ih =>
    intro fs sd hsd
    cases hw : walkCopies P dep with
    | false => rw [stepDeps_cons_skip P fs dep rest hw] at hsd; exact ih sd hsd
    | true =>
      cases hex : pExists fs (libdst P dep) with
      | true => rw [stepDeps_cons_exists P fs dep rest hw hex] at hsd; exact ih sd hsd
      | false =>
        rw [stepDeps_cons_copy P fs dep rest hw hex] at hsd
        rcases List.mem_cons.mp hsd with h | h
        · rw [h]; exact hex
        · have hfresh' := ih sd h
          cases hp : pExists fs sd.2 with
          | false => rfl
          | true =>
            have := pExists_copy2_mono hp dep (libdst P dep)
            rw [this] at hfresh'
            simp at hfresh'

theorem stepDeps_log_created (P : Params) (deps : List String) :
    ∀ {fs : Fs},
      (∀ d ∈ deps, walkCopies P d = true → (fsGet fs d).isSome = true) →
      ∀ sd ∈ (stepDeps P fs deps).log, pExists (stepDeps P fs deps).fs sd.2 = true := by
  induction deps with
  | nil => intro fs _ sd hsd; rw [stepDeps_nil] at hsd; simp at hsd
  | cons dep rest ih =>
    intro fs hdeps sd hsd
    have hdrest : ∀ x ∈ rest, walkCopies P x = true → (fsGet fs x).isSome = true :=
      fun x hx hcx => hdeps x (List.mem_cons_of_mem dep hx) hcx
    cases hw : walkCopies P dep with
    | false =>
      rw [stepDeps_cons_skip P fs dep rest hw] at hsd ⊢
      exact ih hdrest sd hsd
    | true =>
      cases hex : pExists fs (libdst P dep) with
      | true =>
        rw [stepDeps_cons_exists P fs dep rest hw hex] at hsd ⊢
        exact ih hdrest sd hsd
      | false =>
        rw [stepDeps_cons_copy P fs dep rest hw hex] at hsd ⊢
        have hsome := hdeps dep (List.mem_cons_self dep rest) hw
        rcases hg : fsGet fs dep with _ | e
        · rw [hg] at hsome; simp at hsome
        · have hcreated := @pExists_copy2_self _ _ (libdst P dep) _ hg
          have hrest' : ∀ x ∈ rest, walkCopies P x = true →
              (fsGet (copy2 fs dep (libdst P dep)) x).isSome = true := by
            intro x hx hcx
            rcases ho : fsGet fs x with _ | e'
            · have := hdrest x hx hcx; rw [ho] at this; simp at this
            · rw [fsGet_copy2_of_fresh ho hex]; rfl
          rcases List.mem_cons.mp hsd with h | h
          · rw [h]
            exact stepDeps_pExists_mono P rest hcreated
          · exact ih hrest' sd h

theorem stepDeps_log_nodup (P : Params) (deps : List String) :
    ∀ {fs : Fs},
      (∀ d ∈ deps, walkCopies P d = true → (fsGet fs d).isSome = true) →
      ((stepDeps P fs deps).log.map Prod.snd).Nodup := by
  induction deps with
  | nil => intro fs _; rw [stepDeps_nil]; simp
  | cons dep rest ih =>
    intro fs hdeps
    have hdrest : ∀ x ∈ rest, walkCopies P x = true → (fsGet fs x).isSome = true :=
      fun x hx hcx => hdeps x (List.mem_cons_of_mem dep hx) hcx
    cases hw : walkCopies P dep with
    | false => rw [stepDeps_cons_skip P fs dep rest hw]; exact ih hdrest
    | true =>
      cases hex : pExists fs (libdst P dep) with
      | true => rw [stepDeps_cons_exists P fs dep rest hw hex]; exact ih hdrest
      | false =>
        rw [stepDeps_cons_copy P fs dep rest hw hex]
        have hsome := hdeps dep (List.mem_cons_self dep rest) hw
        rcases hg : fsGet fs dep with _ | e
        · rw [hg] at hsome; simp at hsome
        · have hcreated := @pExists_copy2_self _ _ (libdst P dep) _ hg
          have hrest' : ∀ x ∈ rest, walkCopies P x = true →
              (fsGet (copy2 fs dep (libdst P dep)) x).isSome = true := by
            intro x hx hcx
            rcases ho : fsGet fs x with _ | e'
            · have := hdrest x hx hcx; rw [ho] at this; simp at this
            · rw [fsGet_copy2_of_fresh ho hex]; rfl
          simp only [List.map_cons, List.nodup_cons]
          refine ⟨?_, ih hrest'⟩
          intro hmem
          rcases List.mem_map.mp hmem with ⟨sd, hsd, hsnd⟩
          have hfresh := stepDeps_log_fresh P rest sd hsd
          rw [hsnd, hcreated] at hfresh
          simp at hfresh

theorem walk_log_props (P : Params) (univ : List String) :
    ∀ (n : Nat) {fs : Fs} {q : List String} {w : WalkOut}, valsOk P univ fs →
      walk P n fs q = some w →
      (w.log.map Prod.snd).Nodup ∧
      ∀ sd ∈ w.log, pExists fs sd.2 = false ∧ pExists w.fs sd.2 = true := by
  intro n
  induction n with
  | zero =>
    intro fs q w hv hw
    rw [walk_zero] at hw
    rcases hq : q.isEmpty with _ | _
    · rw [hq] at hw; simp at hw
    · rw [hq] at hw; simp at hw; rw [← hw]; simp
  | succ n ih =>
    intro fs q w hv hw
    cases q with
    | nil => rw [walk_succ_nil] at hw; simp at hw; rw [← hw]; simp
    | cons item q' =>
      rw [walk_succ_cons] at hw
      rcases hrec : walk P n (stepDeps P fs (machoDeps fs item)).fs
          (q' ++ (stepDeps P fs (machoDeps fs item)).newQ) with _ | w'
      · rw [hrec] at hw; simp at hw
      · rw [hrec] at hw
        simp at hw
        have hdeps : ∀ d ∈ machoDeps fs item, walkCopies P d = true →
            (fsGet fs d).isSome = true :=
          fun d hd hc => (machoDeps_ok P univ hv item d hd hc).1
        have hv' := stepDeps_valsOk P univ (machoDeps fs item) hv
        rcases ih hv' hrec with ⟨hnd', hprops'⟩
        have hndstep := stepDeps_log_nodup P (machoDeps fs item) hdeps
        have hstepfresh := @stepDeps_log_fresh P (machoDeps fs item) fs
        have hstepcreated := stepDeps_log_created P (machoDeps fs item) hdeps
        subst hw
        constructor
        · simp only [List.map_append]
          rw [List.nodup_append]
          refine ⟨hndstep, hnd', ?_⟩
          intro a ha ha'
          rcases List.mem_map.mp ha with ⟨sd, hsd, hsnd⟩
          rcases List.mem_map.mp ha' with ⟨sd', hsd', hsnd'⟩
          have h1 : pExists (stepDeps P fs (machoDeps fs item)).fs sd.2 = true :=
            hstepcreated sd hsd
          have h2 : pExists (stepDeps P fs (machoDeps fs item)).fs sd'.2 = false :=
            (hprops' sd' hsd').1
          rw [hsnd] at h1
          rw [hsnd'] at h2
          rw [h1] at h2
          simp at h2
        · intro sd hsd
          simp only [List.mem_append] at hsd
          rcases hsd with h | h
          · refine ⟨hstepfresh sd h, ?_⟩
            exact walk_pExists_mono P n hrec (hstepcreated sd h)
          · rcases hprops' sd h with ⟨hfresh', hex'⟩
            refine ⟨?_, hex'⟩
            cases hp : pExists fs sd.2 with
            | false => rfl
            | true =>
              have := stepDeps_pExists_mono P (machoDeps fs item) hp
              rw [this] at hfresh'
              simp at hfresh'

-- ── The walkCopies filter, spelled out ───────────────────────────────────

theorem walkCopies_eq_true_iff (P : Params) (d : String) :
    walkCopies P d = true ↔
      sStarts d "@" = false ∧ sStarts d P.gimpApp = false ∧
      sStarts d "/System" = false ∧ sStarts d "/usr/lib" = false ∧
      sStarts d P.mp = true ∧ sEnds d ".dylib" = true := by
  unfold walkCopies
  cases h1 : sStarts d "@" <;> cases h2 : sStarts d P.gimpApp <;>
    cases h3 : sStarts d "/System" <;> cases h4 : sStarts d "/usr/lib" <;>
    simp [h1, h2, h3, h4]

-- ── C6: the walk is FIFO, enqueues each destination once, terminates ─────

/-- C6: for any finite filesystem whose filtered dependencies exist, the
first-in first-out walk empties its queue after finitely many iterations
(some fuel suffices), and every copied destination is enqueued at most
once (the destination list of the copy log is duplicate-free). -/
theorem walk_terminates_fifo (P : Params) (fs : Fs) (q : List String)
    (h : depsExistB P fs = true) :
    ∃ n w, walk P n fs q = some w ∧ (w.log.map Prod.snd).Nodup := by
  have hv := valsOk_of_depsExistB P fs h
  have hterm := walk_term P (depUniv P fs) (q.length + countFresh P (depUniv P fs) fs)
    hv (le_refl _)
  rcases hx : walk P (q.length + countFresh P (depUniv P fs) fs) fs q with _ | w
  · rw [hx] at hterm; simp at hterm
  · exact ⟨_, w, hx, (walk_log_props P (depUniv P fs) _ hv hx).1⟩

theorem walk_terminates_fifo_inst :
    depsExistB Pc fs5c = true ∧
    ∃ n w, walk Pc n fs5c binsc = some w ∧ (w.log.map Prod.snd).Nodup :=
  ⟨by decide, walk_terminates_fifo Pc fs5c binsc (by decide)⟩

-- ── C1: what the walk copies ─────────────────────────────────────────────

/-- C1 (counterexample to the claim as stated): in the concrete run, the
walk examines the dependency `/m/b/x.dylib` of the plugin binary, which
starts with the MacPorts prefix and ends in `.dylib`, yet never copies
it — its basename was already taken by the earlier dependency
`/m/a/x.dylib` — so the walk does not copy exactly the dependencies
matching the prefix/suffix filter. -/
theorem walk_copies_exactness_cex :
    walk Pc 12 fs5c binsc = some wc ∧
    ("/b/p", "/m/b/x.dylib") ∈ wc.dlog ∧
    sStarts "/m/b/x.dylib" Pc.mp = true ∧ sEnds "/m/b/x.dylib" ".dylib" = true ∧
    wc.log.all (fun sd => sd.1 != "/m/b/x.dylib") = true ∧
    wc.log = [("/m/a/x.dylib", "/b/Frameworks/lib/x.dylib")] := by
  decide

/-- C1 (amended): every copy performed by the walk is of a dependency
that starts with the MacPorts prefix, ends in `.dylib`, starts with none
of `@` / the GIMP.app path / `/System` / `/usr/lib`, goes to
`Frameworks/lib/<basename>`, and whose destination did not exist at the
start of the walk; conversely, for every dependency examined by the walk
that passes the filter, the destination `Frameworks/lib/<basename>`
exists once the walk ends (it is copied there unless already present). -/
theorem walk_filter_characterization (P : Params) (n : Nat) (fs : Fs)
    (q : List String) (w : WalkOut) (hdep : depsExistB P fs = true)
    (hw : walk P n fs q = some w) :
    (∀ sd ∈ w.log,
      sStarts sd.1 P.mp = true ∧ sEnds sd.1 ".dylib" = true ∧
      sStarts sd.1 "@" = false ∧ sStarts sd.1 P.gimpApp = false ∧
      sStarts sd.1 "/System" = false ∧ sStarts sd.1 "/usr/lib" = false ∧
      sd.2 = libdst P sd.1 ∧ pExists fs sd.2 = false) ∧
    (∀ pr ∈ w.dlog, walkCopies P pr.2 = true →
      pExists w.fs (libdst P pr.2) = true) := by
  have hv := valsOk_of_depsExistB P fs hdep
  constructor
  · intro sd hsd
    rcases walk_log_sound P n hw sd hsd with ⟨hcp, hdst⟩
    rcases (walkCopies_eq_true_iff P sd.1).mp hcp with ⟨h1, h2, h3, h4, h5, h6⟩
    have hfresh := ((walk_log_props P (depUniv P fs) n hv hw).2 sd hsd).1
    exact ⟨h5, h6, h1, h2, h3, h4, hdst, hfresh⟩
  · exact walk_complete P (depUniv P fs) n hv hw

theorem walk_filter_characterization_inst :
    depsExistB Pc fs5c = true ∧ walk Pc 12 fs5c binsc = some wc ∧
    ((∀ sd ∈ wc.log,
      sStarts sd.1 Pc.mp = true ∧ sEnds sd.1 ".dylib" = true ∧
      sStarts sd.1 "@" = false ∧ sStarts sd.1 Pc.gimpApp = false ∧
      sStarts sd.1 "/System" = false ∧ sStarts sd.1 "/usr/lib" = false ∧
      sd.2 = libdst Pc sd.1 ∧ pExists fs5c sd.2 = false) ∧
    (∀ pr ∈ wc.dlog, walkCopies Pc pr.2 = true →
      pExists wc.fs (libdst Pc pr.2) = true)) :=
  ⟨by decide, by decide,
   walk_filter_characterization Pc 12 fs5c binsc wc (by decide) (by decide)⟩

-- ── C9: destinations in Frameworks/lib are never overwritten ─────────────

theorem copyFold_get_mono (P : Params) :
    ∀ (srcs : List String) {fs : Fs} {p : String} {e : Entry}, fsGet fs p = some e →
      fsGet (srcs.foldl (fun fs src =>
        if pExists fs src then
          if pExists fs (libdst P src) then fs else copy2 fs src (libdst P src)
        else fs) fs) p = some e := by
  intro srcs
  induction srcs with
  | nil => intro fs p e h; exact h
  | cons src rest ih =>
    intro fs p e h
    rw [List.foldl_cons]
    refine ih ?_
    cases h1 : pExists fs src with
    | false => simp only [h1, Bool.false_eq_true, if_false]; exact h
    | true =>
      cases h2 : pExists fs (libdst P src) with
      | true => simp only [h1, h2, if_true]; exact h
      | false =>
        simp only [h1, h2, if_true, Bool.false_eq_true, if_false]
        exact fsGet_copy2_of_fresh h h2

/-- C9: throughout the explicit-library copies and the dependency walk, a
file is copied to `Frameworks/lib/<basename>` only when that destination
does not exist yet: any entry present before these phases is untouched
afterwards, so each destination is written at most once per run and the
first source with a given basename wins. -/
theorem copy_no_overwrite (P : Params) (n : Nat) (fs : Fs) (q : List String)
    (w : WalkOut) (hw : walk P n (explicitPhase P fs) q = some w)
    (p : String) (e : Entry) (h : fsGet fs p = some e) :
    fsGet (explicitPhase P fs) p = some e ∧ fsGet w.fs p = some e := by
  have h1 : fsGet (explicitPhase P fs) p = some e := copyFold_get_mono P (explicit_libs P) h
  exact ⟨h1, walk_get_mono P n hw h1⟩

theorem copy_no_overwrite_inst :
    fsGet fs4c "/m/a/x.dylib" = some (.macho ⟨"/m/a/x.dylib", [], []⟩) ∧
    (fsGet (explicitPhase Pc fs4c) "/m/a/x.dylib" = some (.macho ⟨"/m/a/x.dylib", [], []⟩) ∧
     fsGet wc.fs "/m/a/x.dylib" = some (.macho ⟨"/m/a/x.dylib", [], []⟩)) :=
  ⟨by decide,
   copy_no_overwrite Pc 12 fs4c binsc wc (by decide) "/m/a/x.dylib"
     (.macho ⟨"/m/a/x.dylib", [], []⟩) (by decide)⟩

-- ── Properties of the remap decision ─────────────────────────────────────

theorem sStarts_at_append (s : String) (h : sStarts s "@" = true) (t : String) :
    sStarts (s ++ t) "@" = true := by
  rw [sStarts_iff] at h ⊢
  rw [String.data_append]
  exact h.trans (List.prefix_append s.data t.data)

theorem remapDep_some_spec (P : Params) (d n : String) (h : remapDep P d = some n) :
    sStarts n "@" = true ∧ sStarts d "@" = false := by
  unfold remapDep at h
  cases h1 : sStarts d "@" with
  | true => rw [h1] at h; simp at h
  | false =>
    rw [h1] at h
    simp only [Bool.false_eq_true, if_false] at h
    cases h2 : (sStarts d P.gimpApp || sStarts d "/System" || sStarts d "/usr/lib") with
    | true => rw [h2] at h; simp at h
    | false =>
      rw [h2] at h
      simp only [Bool.false_eq_true, if_false] at h
      cases h3 : sStarts d P.mp with
      | false => rw [h3] at h; simp at h
      | true =>
        rw [h3] at h
        simp only [if_true] at h
        cases h4 : sContains d ".framework/" with
        | true =>
          rw [h4] at h
          simp only [if_true] at h
          cases h5 : pyTruthy (framework_name d) with
          | false => rw [h5] at h; simp at h
          | true =>
            rw [h5] at h
            simp only [if_true, Option.some.injEq] at h
            refine ⟨?_, rfl⟩
            rw [← h]
            exact sStarts_at_append _ (sStarts_at_append _ (sStarts_at_append _ (by decide) _) _) _
        | false =>
          rw [h4] at h
          simp only [Bool.false_eq_true, if_false] at h
          cases h6 : sEnds d ".dylib" with
          | false => rw [h6] at h; simp at h
          | true =>
            rw [h6] at h
            simp only [if_true, Option.some.injEq] at h
            refine ⟨?_, rfl⟩
            rw [← h]
            exact sStarts_at_append _ (by decide) _

theorem remapDep_none_spec (P : Params) (d : String) (h : remapDep P d = none)
    (h1 : sStarts d "@" = false) (h2 : sStarts d P.gimpApp = false)
    (h3 : sStarts d "/System" = false) (h4 : sStarts d "/usr/lib" = false)
    (h5 : sStarts d P.mp = true) :
    (sContains d ".framework/" = true → pyTruthy (framework_name d) = false) ∧
    (sContains d ".framework/" = false → sEnds d ".dylib" = false) := by
  unfold remapDep at h
  rw [h1, h2, h3, h4, h5] at h
  simp only [Bool.false_eq_true, if_false, Bool.or_self, if_true] at h
  constructor
  · intro hc
    rw [hc] at h
    simp only [if_true] at h
    cases h5' : pyTruthy (framework_name d) with
    | false => rfl
    | true => rw [h5'] at h; simp at h
  · intro hc
    rw [hc] at h
    simp only [Bool.false_eq_true, if_false] at h
    cases h6 : sEnds d ".dylib" with
    | false => rfl
    | true => rw [h6] at h; simp at h

-- ── The remap loop equals an elementwise substitution ────────────────────

theorem remap_fold_pointwise (P : Params) :
    ∀ (deps cur : List String),
      deps.foldl (fun cur dep =>
        match remapDep P dep with
        | some n => applyChange cur dep n
        | none => cur) cur =
      cur.map (fun x => deps.foldl (remapStep P) x) := by
  intro deps
  induction deps with
  | nil => intro cur; simp
  | cons dep rest ih =>
    intro cur
    simp only [List.foldl_cons]
    cases hr : remapDep P dep with
    | some n =>
      rw [ih (applyChange cur dep n)]
      unfold applyChange
      rw [List.map_map]
      apply List.map_congr_left
      intro x _
      simp [remapStep, hr, Function.comp]
    | none =>
      rw [ih cur]
      apply List.map_congr_left
      intro x _
      simp [remapStep, hr]

theorem remapStep_of_at (P : Params) (y dep : String) (hy : sStarts y "@" = true) :
    remapStep P y dep = y := by
  unfold remapStep
  cases hr : remapDep P dep with
  | none => rfl
  | some n =>
    have hd := (remapDep_some_spec P dep n hr).2
    by_cases hyd : y = dep
    · rw [hyd] at hy; rw [hy] at hd; simp at hd
    · simp [hyd]

theorem chain_of_at (P : Params) (deps : List String) :
    ∀ y, sStarts y "@" = true → deps.foldl (remapStep P) y = y := by
  induction deps with
  | nil => intro y _; rfl
  | cons dep rest ih =>
    intro y hy
    rw [List.foldl_cons, remapStep_of_at P y dep hy]
    exact ih y hy

theorem chain_of_none (P : Params) (deps : List String) :
    ∀ x, remapDep P x = none → deps.foldl (remapStep P) x = x := by
  induction deps with
  | nil => intro x _; rfl
  | cons dep rest ih =>
    intro x hx
    have hstep : remapStep P x dep = x := by
      unfold remapStep
      cases hr : remapDep P dep with
      | none => rfl
      | some n =>
        by_cases hxd : x = dep
        · rw [hxd] at hx; rw [hx] at hr; simp at hr
        · simp [hxd]
    rw [List.foldl_cons, hstep]
    exact ih x hx

theorem chain_mem (P : Params) :
    ∀ (deps : List String) (x : String), x ∈ deps →
      deps.foldl (remapStep P) x = (remapDep P x).getD x := by
  intro deps
  induction deps with
  | nil => intro x hx; simp at hx
  | cons dep rest ih =>
    intro x hx
    rw [List.foldl_cons]
    by_cases hxd : x = dep
    · subst hxd
      cases hr : remapDep P x with
      | none =>
        have hstep : remapStep P x x = x := by simp [remapStep, hr]
        rw [hstep, chain_of_none P rest x hr]
        rfl
      | some n =>
        have hstep : remapStep P x x = n := by simp [remapStep, hr]
        rw [hstep, chain_of_at P rest n (remapDep_some_spec P x n hr).1]
        rfl
    · have hstep : remapStep P x dep = x := by
        unfold remapStep
        cases hr : remapDep P dep with
        | none => rfl
        | some n => simp [hxd]
      rw [hstep]
      have hxr : x ∈ rest := by
        rcases List.mem_cons.mp hx with h | h
        · exact absurd h hxd
        · exact h
      exact ih x hxr

theorem remapBinary_eq_map (P : Params) (orig : List String) :
    remapBinary P orig = orig.map (fun x => (remapDep P x).getD x) := by
  unfold remapBinary
  rw [remap_fold_pointwise]
  apply List.map_congr_left
  intro x hx
  exact chain_mem P orig x hx

theorem remapBinary_post (P : Params) (orig : List String) :
    ∀ d ∈ remapBinary P orig, sStarts d "@" = true ∨ remapDep P d = none := by
  intro d hd
  rw [remapBinary_eq_map] at hd
  rcases List.mem_map.mp hd with ⟨x, hx, hxd⟩
  cases hr : remapDep P x with
  | none =>
    rw [hr] at hxd
    simp at hxd
    rw [← hxd]
    exact Or.inr hr
  | some n =>
    rw [hr] at hxd
    simp at hxd
    rw [← hxd]
    exact Or.inl (remapDep_some_spec P x n hr).1

-- ── modifyMacho and phase-level lemmas ───────────────────────────────────

theorem modifyMacho_get_ne (fs : Fs) (b : String) (f : MachO → MachO) (p : String)
    (h : p ≠ b) : fsGet (modifyMacho fs b f) p = fsGet fs p := by
  unfold modifyMacho
  rcases hg : fsGet fs b with _ | e
  · rfl
  · rcases e with _ | m | c
    · rfl
    · exact fsGet_fsSet_ne fs b p _ h
    · rfl

theorem modifyMacho_pullback (fs : Fs) (b : String) (f : MachO → MachO) (p : String)
    (m : MachO) (hg : fsGet (modifyMacho fs b f) p = some (.macho m)) :
    ∃ m0, fsGet fs p = some (.macho m0) ∧ (m = m0 ∨ m = f m0) := by
  unfold modifyMacho at hg
  rcases hb : fsGet fs b with _ | e
  · rw [hb] at hg; exact ⟨m, hg, Or.inl rfl⟩
  · rcases e with _ | m0 | c
    · rw [hb] at hg; exact ⟨m, hg, Or.inl rfl⟩
    · rw [hb] at hg
      by_cases hpb : p = b
      · subst hpb
        rw [fsGet_fsSet_self] at hg
        injection hg with h'
        injection h' with h''
        exact ⟨m0, hb, Or.inr h''.symm⟩
      · rw [fsGet_fsSet_ne fs b p _ hpb] at hg
        exact ⟨m, hg, Or.inl rfl⟩
    · rw [hb] at hg; exact ⟨m, hg, Or.inl rfl⟩

theorem add_rpath_preserves (m : MachO) (r : String) :
    ((add_rpath_if_missing m r).1).deps = m.deps ∧
    ((add_rpath_if_missing m r).1).instName = m.instName := by
  unfold add_rpath_if_missing
  by_cases h : r ∈ m.rpaths <;> simp [h]

theorem addRpathAt_pullback (fs : Fs) (b r p : String) (m : MachO)
    (hg : fsGet (addRpathAt fs b r) p = some (.macho m)) :
    ∃ m0, fsGet fs p = some (.macho m0) ∧ m0.deps = m.deps ∧ m0.instName = m.instName := by
  rcases modifyMacho_pullback fs b _ p m hg with ⟨m0, hm0, hc⟩
  rcases hc with h | h
  · exact ⟨m0, hm0, by rw [h], by rw [h]⟩
  · rcases add_rpath_preserves m0 r with ⟨h1, h2⟩
    exact ⟨m0, hm0, by rw [h, h1], by rw [h, h2]⟩

theorem foldl_macho_pullback {α : Type} (step : Fs → α → Fs)
    (hstep : ∀ fs a p m, fsGet (step fs a) p = some (.macho m) →
      ∃ m0, fsGet fs p = some (.macho m0) ∧ m0.deps = m.deps ∧ m0.instName = m.instName) :
    ∀ (l : List α) (fs : Fs) (p : String) (m : MachO),
      fsGet (l.foldl step fs) p = some (.macho m) →
      ∃ m0, fsGet fs p = some (.macho m0) ∧ m0.deps = m.deps ∧ m0.instName = m.instName := by
  intro l
  induction l with
  | nil => intro fs p m h; exact ⟨m, h, rfl, rfl⟩
  | cons a rest ih =>
    intro fs p m h
    rw [List.foldl_cons] at h
    rcases ih (step fs a) p m h with ⟨m1, hm1, hd1, hi1⟩
    rcases hstep fs a p m1 hm1 with ⟨m0, hm0, hd0, hi0⟩
    exact ⟨m0, hm0, by rw [hd0, hd1], by rw [hi0, hi1]⟩

theorem rpathPhase_pullback (P : Params) (fs : Fs) (p : String) (m : MachO)
    (hg : fsGet (rpathPhase P fs) p = some (.macho m)) :
    ∃ m0, fsGet fs p = some (.macho m0) ∧ m0.deps = m.deps ∧ m0.instName = m.instName := by
  unfold rpathPhase at hg
  have hstep2 : ∀ (fs : Fs) (n : String) (p : String) (m : MachO),
      fsGet ((fun fs n =>
        if pExists fs (fwBinPath P n) then addRpathAt fs (fwBinPath P n) "@loader_path/../../.."
        else fs) fs n) p = some (.macho m) →
      ∃ m0, fsGet fs p = some (.macho m0) ∧ m0.deps = m.deps ∧ m0.instName = m.instName := by
    intro fs n p m h
    cases hc : pExists fs (fwBinPath P n) with
    | true =>
      simp only [hc, if_true] at h
      exact addRpathAt_pullback fs _ _ p m h
    | false =>
      simp only [hc, Bool.false_eq_true, if_false] at h
      exact ⟨m, h, rfl, rfl⟩
  have hstep1 : ∀ (fs : Fs) (q : String) (p : String) (m : MachO),
      fsGet ((fun fs q =>
        addRpathAt (addRpathAt fs q "@loader_path/../..") q "@executable_path/../Frameworks")
          fs q) p = some (.macho m) →
      ∃ m0, fsGet fs p = some (.macho m0) ∧ m0.deps = m.deps ∧ m0.instName = m.instName := by
    intro fs q p m h
    rcases addRpathAt_pullback _ _ _ p m h with ⟨m1, hm1, hd1, hi1⟩
    rcases addRpathAt_pullback _ _ _ p m1 hm1 with ⟨m0, hm0, hd0, hi0⟩
    exact ⟨m0, hm0, by rw [hd0, hd1], by rw [hi0, hi1]⟩
  rcases foldl_macho_pullback _ hstep2 QT_FRAMEWORKS _ p m hg with ⟨m2, hm2, hd2, hi2⟩
  rcases foldl_macho_pullback _ hstep1 _ _ p m2 hm2 with ⟨m1, hm1, hd1, hi1⟩
  rcases addRpathAt_pullback _ _ _ p m1 hm1 with ⟨mh, hmh, hdh, hih⟩
  rcases addRpathAt_pullback _ _ _ p mh hmh with ⟨m0, hm0, hd0, hi0⟩
  refine ⟨m0, hm0, ?_, ?_⟩
  · rw [hd0, hdh, hd1, hd2]
  · rw [hi0, hih, hi1, hi2]

theorem remapPhase_cons (P : Params) (fs : Fs) (b : String) (rest : List String) :
    remapPhase P fs (b :: rest) =
      remapPhase P (modifyMacho fs b (fun m => { m with deps := remapBinary P m.deps })) rest := rfl

theorem remapPhase_get_notin (P : Params) (bins : List String) :
    ∀ (fs : Fs) (p : String), p ∉ bins →
      fsGet (remapPhase P fs bins) p = fsGet fs p := by
  induction bins with
  | nil => intro fs p _; rfl
  | cons b rest ih =>
    intro fs p hp
    rw [remapPhase_cons]
    have hpb : p ≠ b := fun h => hp (h ▸ List.mem_cons_self b rest)
    have hpr : p ∉ rest := fun h => hp (List.mem_cons_of_mem b h)
    rw [ih _ p hpr, modifyMacho_get_ne fs b _ p hpb]

theorem remapPhase_post (P : Params) (bins : List String) :
    ∀ (fs : Fs) (p : String) (m : MachO), p ∈ bins →
      fsGet (remapPhase P fs bins) p = some (.macho m) →
      ∀ d ∈ m.deps, sStarts d "@" = true ∨ remapDep P d = none := by
  induction bins with
  | nil => intro fs p m hp; simp at hp
  | cons b rest ih =>
    intro fs p m hp hg
    rw [remapPhase_cons] at hg
    by_cases hpr : p ∈ rest
    · exact ih _ p m hpr hg
    · have hpb : p = b := by
        rcases List.mem_cons.mp hp with h | h
        · exact h
        · exact absurd h hpr
      subst hpb
      rw [remapPhase_get_notin P rest _ p hpr] at hg
      unfold modifyMacho at hg
      rcases hf : fsGet fs p with _ | e
      · rw [hf] at hg; rw [hf] at hg; simp at hg
      · rcases e with _ | m0 | c
        · rw [hf] at hg; rw [hf] at hg; simp at hg
        · rw [hf] at hg
          rw [fsGet_fsSet_self] at hg
          simp only [Option.some.injEq, Entry.macho.injEq] at hg
          intro d hd
          rw [← hg] at hd
          exact remapBinary_post P m0.deps d hd
        · rw [hf] at hg; rw [hf] at hg; simp at hg

-- ── Inversion of a successful bundle run ─────────────────────────────────

theorem bundle_ok_inv (P : Params) (fuel : Nat) (fs0 : Fs) (out : BundleOut)
    (h : bundle P fuel fs0 = some (.ok out)) :
    ∃ fs2 w, qtFwPhase P (mkdirPhase P fs0) = .ok fs2 ∧
      walk P fuel (explicitPhase P (qtConfPhase P (qtPluginsPhase P fs2)))
        (initialBins P (qtConfPhase P (qtPluginsPhase P fs2))) = some w ∧
      out.processed = (initialBins P (qtConfPhase P (qtPluginsPhase P fs2)) ++
        globDylibs w.fs (libDirOf P)).eraseDups ∧
      out.fs = rpathPhase P (remapPhase P (setIdsPhase P w.fs) out.processed) ∧
      out.walkLog = w.log ∧ out.walkDeps = w.dlog := by
  unfold bundle at h
  by_cases hc : (!isDirAt fs0 P.bundleDir || !pExists fs0 P.pluginBin) = true
  · rw [if_pos hc] at h
    simp at h
  · rw [if_neg hc] at h
    split at h
    · simp at h
    · rename_i fs2 hfw
      split at h
      · simp at h
      · rename_i w hwk
        simp only [Option.some.injEq] at h
        injection h with hout2
        refine ⟨fs2, w, hfw, hwk, ?_, ?_, ?_, ?_⟩
        · rw [← hout2]
        · rw [← hout2]
        · rw [← hout2]
        · rw [← hout2]

-- ── C2: which dependency paths get rewritten ─────────────────────────────

/-- C2 (counterexample to the claim as stated): in the concrete run the
bundle completes, yet the processed plugin binary still carries the
dependency `/m/lib/y.so`, which lies under the MacPorts prefix (a host
library location outside the bundle): the remap loop only rewrites
`.dylib` and `.framework/` dependencies. -/
theorem bundle_macports_dep_remains_cex :
    bundle Pc 20 fs0c = some (.ok outc) ∧
    "/b/p" ∈ outc.processed ∧
    "/m/lib/y.so" ∈ machoDeps outc.fs "/b/p" ∧
    sStarts "/m/lib/y.so" Pc.mp = true := by
  decide

/-- C2 (amended): after a successful bundle run, every remaining
dependency of a processed binary that starts with the MacPorts prefix
and survives the `@` / GIMP.app / `/System` / `/usr/lib` skips is one
the remap loop cannot rewrite: inside a `.framework/` path it has a
falsy framework name, and outside one it does not end in `.dylib` —
every MacPorts dependency of those two rewritable shapes has been
replaced by an `@rpath` reference. -/
theorem bundle_remap_macports_deps (P : Params) (fuel : Nat) (fs0 : Fs)
    (out : BundleOut) (h : bundle P fuel fs0 = some (.ok out)) :
    ∀ p ∈ out.processed, ∀ m, fsGet out.fs p = some (.macho m) → ∀ d ∈ m.deps,
      sStarts d "@" = false → sStarts d P.gimpApp = false →
      sStarts d "/System" = false → sStarts d "/usr/lib" = false →
      sStarts d P.mp = true →
      (sContains d ".framework/" = true → pyTruthy (framework_name d) = false) ∧
      (sContains d ".framework/" = false → sEnds d ".dylib" = false) := by
  rcases bundle_ok_inv P fuel fs0 out h with ⟨fs2, w, hfw, hwk, hproc, hfs, hlog, hdlog⟩
  intro p hp m hm d hd h1 h2 h3 h4 h5
  rw [hfs] at hm
  rcases rpathPhase_pullback P _ p m hm with ⟨m1, hm1, hdeps1, _⟩
  have hd1 : d ∈ m1.deps := by rw [hdeps1]; exact hd
  have hpost := remapPhase_post P out.processed _ p m1 hp hm1
  rcases hpost d hd1 with hat | hnone
  · rw [hat] at h1; simp at h1
  · exact remapDep_none_spec P d hnone h1 h2 h3 h4 h5

theorem bundle_remap_macports_deps_inst :
    bundle Pc 20 fs0c = some (.ok outc) ∧
    (∀ p ∈ outc.processed, ∀ m, fsGet outc.fs p = some (.macho m) → ∀ d ∈ m.deps,
      sStarts d "@" = false → sStarts d Pc.gimpApp = false →
      sStarts d "/System" = false → sStarts d "/usr/lib" = false →
      sStarts d Pc.mp = true →
      (sContains d ".framework/" = true → pyTruthy (framework_name d) = false) ∧
      (sContains d ".framework/" = false → sEnds d ".dylib" = false)) :=
  ⟨by decide, bundle_remap_macports_deps Pc 20 fs0c outc (by decide)⟩

-- ── Generic pullbacks for instName/rpaths and existence ──────────────────

theorem foldl_macho_pullback2 {α : Type} (step : Fs → α → Fs)
    (hstep : ∀ fs a p m, fsGet (step fs a) p = some (.macho m) →
      ∃ m0, fsGet fs p = some (.macho m0) ∧ m0.instName = m.instName ∧
        m0.rpaths = m.rpaths) :
    ∀ (l : List α) (fs : Fs) (p : String) (m : MachO),
      fsGet (l.foldl step fs) p = some (.macho m) →
      ∃ m0, fsGet fs p = some (.macho m0) ∧ m0.instName = m.instName ∧
        m0.rpaths = m.rpaths := by
  intro l
  induction l with
  | nil => intro fs p m h; exact ⟨m, h, rfl, rfl⟩
  | cons a rest ih =>
    intro fs p m h
    rw [List.foldl_cons] at h
    rcases ih (step fs a) p m h with ⟨m1, hm1, hi1, hr1⟩
    rcases hstep fs a p m1 hm1 with ⟨m0, hm0, hi0, hr0⟩
    exact ⟨m0, hm0, by rw [hi0, hi1], by rw [hr0, hr1]⟩

theorem foldl_macho_pullback_ex {α : Type} (step : Fs → α → Fs)
    (hstep : ∀ fs a p m, fsGet (step fs a) p = some (.macho m) →
      ∃ m0, fsGet fs p = some (.macho m0)) :
    ∀ (l : List α) (fs : Fs) (p : String) (m : MachO),
      fsGet (l.foldl step fs) p = some (.macho m) →
      ∃ m0, fsGet fs p = some (.macho m0) := by
  intro l
  induction l with
  | nil => intro fs p m h; exact ⟨m, h⟩
  | cons a rest ih =>
    intro fs p m h
    rw [List.foldl_cons] at h
    rcases ih (step fs a) p m h with ⟨m1, hm1⟩
    exact hstep fs a p m1 hm1

theorem remapPhase_pullback_inst (P : Params) (bins : List String) (fs : Fs)
    (p : String) (m : MachO)
    (hg : fsGet (remapPhase P fs bins) p = some (.macho m)) :
    ∃ m0, fsGet fs p = some (.macho m0) ∧ m0.instName = m.instName ∧
      m0.rpaths = m.rpaths := by
  refine foldl_macho_pullback2 _ ?_ bins fs p m hg
  intro fs b p m h
  rcases modifyMacho_pullback fs b _ p m h with ⟨m0, hm0, hc⟩
  rcases hc with h' | h'
  · exact ⟨m0, hm0, by rw [h'], by rw [h']⟩
  · exact ⟨m0, hm0, by rw [h'], by rw [h']⟩

-- ── The set-id folds ─────────────────────────────────────────────────────

theorem fold_setId_notouch (v : String → String) (L : List String) :
    ∀ (fs : Fs) (p : String), (∀ q ∈ L, q ≠ p) →
      fsGet (L.foldl (fun fs q => setIdAt fs q (v q)) fs) p = fsGet fs p := by
  induction L with
  | nil => intro fs p _; rfl
  | cons q rest ih =>
    intro fs p hL
    rw [List.foldl_cons, ih _ p (fun x hx => hL x (List.mem_cons_of_mem q hx))]
    exact modifyMacho_get_ne fs q _ p (fun h => hL q (List.mem_cons_self q rest) h.symm)

theorem fold_setId_spec (v : String → String) (L : List String) :
    ∀ (fs : Fs) (p : String), p ∈ L → ∀ m,
      fsGet (L.foldl (fun fs q => setIdAt fs q (v q)) fs) p = some (.macho m) →
      m.instName = v p := by
  induction L with
  | nil => intro fs p hp; simp at hp
  | cons q rest ih =>
    intro fs p hp m hm
    rw [List.foldl_cons] at hm
    by_cases hpr : p ∈ rest
    · exact ih _ p hpr m hm
    · have hpq : p = q := by
        rcases List.mem_cons.mp hp with h | h
        · exact h
        · exact absurd h hpr
      subst hpq
      rw [fold_setId_notouch v rest _ p (fun x hx hxp => hpr (hxp ▸ hx))] at hm
      unfold setIdAt modifyMacho at hm
      rcases hf : fsGet fs p with _ | e
      · rw [hf] at hm; rw [hf] at hm; simp at hm
      · rcases e with _ | m0 | c
        · rw [hf] at hm; rw [hf] at hm; simp at hm
        · rw [hf] at hm
          rw [fsGet_fsSet_self] at hm
          simp only [Option.some.injEq, Entry.macho.injEq] at hm
          rw [← hm]
          rfl
        · rw [hf] at hm; rw [hf] at hm; simp at hm

theorem fold_setId_cond_notouch (v : String → String) (π : String → String)
    (L : List String) :
    ∀ (fs : Fs) (p : String), (∀ n ∈ L, π n ≠ p) →
      fsGet (L.foldl (fun fs n =>
        if pExists fs (π n) then setIdAt fs (π n) (v n) else fs) fs) p = fsGet fs p := by
  induction L with
  | nil => intro fs p _; rfl
  | cons n rest ih =>
    intro fs p hL
    rw [List.foldl_cons, ih _ p (fun x hx => hL x (List.mem_cons_of_mem n hx))]
    cases hc : pExists fs (π n) with
    | true =>
      simp only [hc, if_true]
      exact modifyMacho_get_ne fs (π n) _ p
        (fun h => hL n (List.mem_cons_self n rest) h.symm)
    | false => simp only [hc, Bool.false_eq_true, if_false]

theorem fold_setId_cond_spec (v : String → String) (π : String → String)
    (L : List String) (hinj : ∀ a ∈ L, ∀ b ∈ L, π a = π b → a = b) :
    ∀ (fs : Fs) (name : String), name ∈ L → ∀ m,
      fsGet (L.foldl (fun fs n =>
        if pExists fs (π n) then setIdAt fs (π n) (v n) else fs) fs) (π name) =
        some (.macho m) →
      m.instName = v name := by
  induction L with
  | nil => intro fs name hn; simp at hn
  | cons n rest ih =>
    intro fs name hn m hm
    rw [List.foldl_cons] at hm
    have hinjr : ∀ a ∈ rest, ∀ b ∈ rest, π a = π b → a = b :=
      fun a ha b hb => hinj a (List.mem_cons_of_mem n ha) b (List.mem_cons_of_mem n hb)
    by_cases hnr : name ∈ rest
    · exact ih hinjr _ name hnr m hm
    · have hnq : name = n := by
        rcases List.mem_cons.mp hn with h | h
        · exact h
        · exact absurd h hnr
      subst hnq
      have hnt : ∀ x ∈ rest, π x ≠ π name := by
        intro x hx hxe
        exact hnr ((hinj x (List.mem_cons_of_mem name hx) name
          (List.mem_cons_self name rest) hxe) ▸ hx)
      rw [fold_setId_cond_notouch v π rest _ (π name) hnt] at hm
      cases hc : pExists fs (π name) with
      | false =>
        rw [hc] at hm
        simp only [Bool.false_eq_true, if_false] at hm
        rw [fsGet_eq_none_of_not_pExists hc] at hm
        simp at hm
      | true =>
        rw [hc] at hm
        simp only [if_true] at hm
        unfold setIdAt modifyMacho at hm
        rcases hf : fsGet fs (π name) with _ | e
        · rw [hf] at hm; rw [hf] at hm; simp at hm
        · rcases e with _ | m0 | c
          · rw [hf] at hm; rw [hf] at hm; simp at hm
          · rw [hf] at hm
            rw [fsGet_fsSet_self] at hm
            simp only [Option.some.injEq, Entry.macho.injEq] at hm
            rw [← hm]
            rfl
          · rw [hf] at hm; rw [hf] at hm; simp at hm

theorem setIdAt_pullback_ex (fs : Fs) (b v p : String) (m : MachO)
    (hg : fsGet (setIdAt fs b v) p = some (.macho m)) :
    ∃ m0, fsGet fs p = some (.macho m0) := by
  rcases modifyMacho_pullback fs b _ p m hg with ⟨m0, hm0, _⟩
  exact ⟨m0, hm0⟩

theorem setIdsPhase_pullback_ex (P : Params) (fs : Fs) (p : String) (m : MachO)
    (hg : fsGet (setIdsPhase P fs) p = some (.macho m)) :
    ∃ m0, fsGet fs p = some (.macho m0) := by
  unfold setIdsPhase at hg
  have h2 : ∀ (fs : Fs) (n : String) (p : String) (m : MachO),
      fsGet ((fun fs n => if pExists fs (fwBinPath P n) then
        setIdAt fs (fwBinPath P n)
          ("@rpath/" ++ n ++ ".framework/Versions/5/" ++ n) else fs) fs n) p =
        some (.macho m) → ∃ m0, fsGet fs p = some (.macho m0) := by
    intro fs n p m h
    cases hc : pExists fs (fwBinPath P n) with
    | true =>
      simp only [hc, if_true] at h
      exact setIdAt_pullback_ex fs _ _ p m h
    | false =>
      simp only [hc, Bool.false_eq_true, if_false] at h
      exact ⟨m, h⟩
  rcases foldl_macho_pullback_ex _ h2 QT_FRAMEWORKS _ p m hg with ⟨m1, hm1⟩
  refine foldl_macho_pullback_ex _ ?_ (globDylibs fs (libDirOf P)) fs p m1 hm1
  intro fs q p m h
  exact setIdAt_pullback_ex fs _ _ p m h

-- ── Path-shape disjointness facts ────────────────────────────────────────

theorem data_fwBinPath (P : Params) (n : String) :
    (fwBinPath P n).data =
      (frameworksDirOf P ++ "/").data ++ (n ++ ".framework/Versions/5/" ++ n).data := by
  unfold fwBinPath
  simp [String.data_append, List.append_assoc]

theorem data_libdir_slash (P : Params) :
    (libDirOf P ++ "/").data = (frameworksDirOf P ++ "/").data ++ "lib/".data := by
  unfold libDirOf
  rw [String.data_append, String.data_append, String.data_append]
  rw [List.append_assoc, List.append_assoc]
  congr 1

theorem fwBinPath_ne_libchild (P : Params) (p : String)
    (hp : sStarts p (libDirOf P ++ "/") = true) :
    ∀ n ∈ QT_FRAMEWORKS, fwBinPath P n ≠ p := by
  intro n hn heq
  rw [← heq] at hp
  rw [sStarts_iff] at hp
  rw [data_libdir_slash, data_fwBinPath] at hp
  have hp2 : "lib/".data <+: (n ++ ".framework/Versions/5/" ++ n).data :=
    (List.prefix_append_right_inj _).mp hp
  have hall : ∀ x ∈ QT_FRAMEWORKS,
      ("lib/".data).isPrefixOf ((x ++ ".framework/Versions/5/" ++ x).data) = false := by
    decide
  have h3 := hall n hn
  rw [List.isPrefixOf_iff_prefix.mpr hp2] at h3
  simp at h3

theorem fwBinPath_inj (P : Params) :
    ∀ a ∈ QT_FRAMEWORKS, ∀ b ∈ QT_FRAMEWORKS, fwBinPath P a = fwBinPath P b → a = b := by
  intro a ha b hb heq
  have hd : (fwBinPath P a).data = (fwBinPath P b).data := by rw [heq]
  rw [data_fwBinPath, data_fwBinPath] at hd
  have hd2 : (a ++ ".framework/Versions/5/" ++ a).data =
      (b ++ ".framework/Versions/5/" ++ b).data := List.append_cancel_left hd
  have hall : ∀ x ∈ QT_FRAMEWORKS, ∀ y ∈ QT_FRAMEWORKS,
      ((x ++ ".framework/Versions/5/" ++ x) == (y ++ ".framework/Versions/5/" ++ y)) = true →
        x = y := by
    decide
  exact hall a ha b hb (beq_iff_eq.mpr (String.ext hd2))

-- ── Glob membership facts ────────────────────────────────────────────────

theorem cond_of_mem_globDylibs {fs : Fs} {dir p : String} (h : p ∈ globDylibs fs dir) :
    (sStarts p (dir ++ "/") && sEnds p ".dylib"
      && !((p.data.drop (dir.data.length + 1)).contains '/')) = true := by
  unfold globDylibs at h
  rcases List.mem_filterMap.mp h with ⟨x, hx, hcond⟩
  by_cases hc : (sStarts x.1 (dir ++ "/") && sEnds x.1 ".dylib"
      && !((x.1.data.drop (dir.data.length + 1)).contains '/')) = true
  · rw [if_pos hc] at hcond
    injection hcond with h'
    rw [← h']
    exact hc
  · rw [if_neg hc] at hcond
    simp at hcond

theorem mem_globDylibs_of {fs : Fs} {dir p : String} {e : Entry} (hmem : (p, e) ∈ fs)
    (hc : (sStarts p (dir ++ "/") && sEnds p ".dylib"
      && !((p.data.drop (dir.data.length + 1)).contains '/')) = true) :
    p ∈ globDylibs fs dir := by
  unfold globDylibs
  refine List.mem_filterMap.mpr ⟨(p, e), hmem, ?_⟩
  have hif : (if (sStarts p (dir ++ "/") && sEnds p ".dylib"
      && !((p.data.drop (dir.data.length + 1)).contains '/')) = true then
      some p else none) = some p := by rw [if_pos hc]
  exact hif

-- ── C3: install names after bundling ─────────────────────────────────────

/-- C3: after a successful bundle run, every `Frameworks/lib/*.dylib`
entry that is a Mach-O binary advertises the install name
`@rpath/lib/<basename>`, and every existing bundled Qt framework binary
advertises `@rpath/<Name>.framework/Versions/5/<Name>`. -/
theorem bundle_install_ids (P : Params) (fuel : Nat) (fs0 : Fs) (out : BundleOut)
    (h : bundle P fuel fs0 = some (.ok out)) :
    (∀ p ∈ globDylibs out.fs (libDirOf P), ∀ m, fsGet out.fs p = some (.macho m) →
      m.instName = "@rpath/lib/" ++ baseName p) ∧
    (∀ name ∈ QT_FRAMEWORKS, ∀ m,
      fsGet out.fs (fwBinPath P name) = some (.macho m) →
      m.instName = "@rpath/" ++ name ++ ".framework/Versions/5/" ++ name) := by
  rcases bundle_ok_inv P fuel fs0 out h with ⟨fs2, w, hfw, hwk, hproc, hfs, hlog, hdlog⟩
  constructor
  · intro p hp m hm
    rw [hfs] at hm
    rcases rpathPhase_pullback P _ p m hm with ⟨m1, hm1, _, hi1⟩
    rcases remapPhase_pullback_inst P out.processed _ p m1 hm1 with ⟨m2, hm2, hi2, _⟩
    have hcond := cond_of_mem_globDylibs hp
    have hA : sStarts p (libDirOf P ++ "/") = true := by
      have h' := hcond
      simp only [Bool.and_eq_true] at h'
      exact h'.1.1
    have hnotfw := fwBinPath_ne_libchild P p hA
    unfold setIdsPhase at hm2
    rw [fold_setId_cond_notouch
      (fun n => "@rpath/" ++ n ++ ".framework/Versions/5/" ++ n)
      (fwBinPath P) QT_FRAMEWORKS _ p hnotfw] at hm2
    rcases foldl_macho_pullback_ex _
      (fun fs q p m h => setIdAt_pullback_ex fs _ _ p m h)
      (globDylibs w.fs (libDirOf P)) w.fs p m2 hm2 with ⟨m3, hm3⟩
    have hpL : p ∈ globDylibs w.fs (libDirOf P) :=
      mem_globDylibs_of (fsGet_mem hm3) hcond
    have hspec := fold_setId_spec (fun q => "@rpath/lib/" ++ baseName q)
      (globDylibs w.fs (libDirOf P)) w.fs p hpL m2 hm2
    rw [← hi1, ← hi2]
    exact hspec
  · intro name hn m hm
    rw [hfs] at hm
    rcases rpathPhase_pullback P _ _ m hm with ⟨m1, hm1, _, hi1⟩
    rcases remapPhase_pullback_inst P out.processed _ _ m1 hm1 with ⟨m2, hm2, hi2, _⟩
    unfold setIdsPhase at hm2
    have hspec := fold_setId_cond_spec
      (fun n => "@rpath/" ++ n ++ ".framework/Versions/5/" ++ n)
      (fwBinPath P) QT_FRAMEWORKS (fwBinPath_inj P) _ name hn m2 hm2
    rw [← hi1, ← hi2]
    exact hspec

theorem bundle_install_ids_inst :
    bundle Pc 20 fs0c = some (.ok outc) ∧
    ((∀ p ∈ globDylibs outc.fs (libDirOf Pc), ∀ m, fsGet outc.fs p = some (.macho m) →
      m.instName = "@rpath/lib/" ++ baseName p) ∧
    (∀ name ∈ QT_FRAMEWORKS, ∀ m,
      fsGet outc.fs (fwBinPath Pc name) = some (.macho m) →
      m.instName = "@rpath/" ++ name ++ ".framework/Versions/5/" ++ name)) :=
  ⟨by decide, bundle_install_ids Pc 20 fs0c outc (by decide)⟩

-- ── pyAdd and addRpathAt basics ──────────────────────────────────────────

theorem add_rpath_fst (m : MachO) (r : String) :
    (add_rpath_if_missing m r).1 = { m with rpaths := pyAdd m.rpaths r } := by
  unfold add_rpath_if_missing pyAdd
  by_cases h : r ∈ m.rpaths <;> simp [h]

theorem mem_pyAdd_self (l : List String) (r : String) : r ∈ pyAdd l r := by
  unfold pyAdd
  by_cases h : r ∈ l <;> simp [h]

theorem mem_pyAdd_of_mem {l : List String} {x : String} (h : x ∈ l) (r : String) :
    x ∈ pyAdd l r := by
  unfold pyAdd
  by_cases hr : r ∈ l <;> simp [hr, h]

theorem pyAdd_of_mem {l : List String} {r : String} (h : r ∈ l) : pyAdd l r = l := by
  unfold pyAdd
  simp [h]

theorem addRpathAt_get_self {fs : Fs} {b : String} {m : MachO}
    (h : fsGet fs b = some (.macho m)) (r : String) :
    fsGet (addRpathAt fs b r) b = some (.macho { m with rpaths := pyAdd m.rpaths r }) := by
  unfold addRpathAt modifyMacho
  rw [h, fsGet_fsSet_self]
  simp only [add_rpath_fst]

theorem addRpathAt_get_ne (fs : Fs) (b r p : String) (h : p ≠ b) :
    fsGet (addRpathAt fs b r) p = fsGet fs p :=
  modifyMacho_get_ne fs b _ p h

-- ── Entry-path transport through modifyMacho ─────────────────────────────

theorem mem_path_modifyMacho (fs : Fs) (b : String) (f : MachO → MachO) (x : String) :
    (∃ e, (x, e) ∈ modifyMacho fs b f) ↔ (∃ e, (x, e) ∈ fs) := by
  rcases hb : fsGet fs b with _ | e0
  · unfold modifyMacho
    rw [hb]
  · rcases e0 with _ | m0 | c
    · unfold modifyMacho
      rw [hb]
    · have hrw : modifyMacho fs b f = fsSet fs b (.macho (f m0)) := by
        unfold modifyMacho
        rw [hb]
      rw [hrw]
      unfold fsSet
      constructor
      · rintro ⟨e, he⟩
        rcases List.mem_cons.mp he with h | h
        · have h1 : x = b := congrArg Prod.fst h
          subst h1
          exact ⟨Entry.macho m0, fsGet_mem hb⟩
        · exact ⟨e, (List.mem_filter.mp h).1⟩
      · rintro ⟨e, he⟩
        by_cases hxb : x = b
        · subst hxb
          exact ⟨Entry.macho (f m0), List.mem_cons_self _ _⟩
        · refine ⟨e, List.mem_cons_of_mem _ (List.mem_filter.mpr ⟨he, ?_⟩)⟩
          simp [hxb]
    · unfold modifyMacho
      rw [hb]

-- ── rglob membership facts ───────────────────────────────────────────────

theorem cond_of_mem_rglob {fs : Fs} {dir p : String} (h : p ∈ rglobDylibs fs dir) :
    (sStarts p (dir ++ "/") && sEnds p ".dylib") = true := by
  unfold rglobDylibs at h
  rcases List.mem_filterMap.mp h with ⟨x, hx, hcond⟩
  by_cases hc : (sStarts x.1 (dir ++ "/") && sEnds x.1 ".dylib") = true
  · rw [if_pos hc] at hcond
    injection hcond with h'
    rw [← h']
    exact hc
  · rw [if_neg hc] at hcond
    simp at hcond

theorem entry_of_mem_rglob {fs : Fs} {dir p : String} (h : p ∈ rglobDylibs fs dir) :
    ∃ e, (p, e) ∈ fs := by
  unfold rglobDylibs at h
  rcases List.mem_filterMap.mp h with ⟨x, hx, hcond⟩
  by_cases hc : (sStarts x.1 (dir ++ "/") && sEnds x.1 ".dylib") = true
  · rw [if_pos hc] at hcond
    injection hcond with h'
    rcases x with ⟨x1, x2⟩
    simp at h'
    rw [← h']
    exact ⟨x2, hx⟩
  · rw [if_neg hc] at hcond
    simp at hcond

theorem mem_rglob_of {fs : Fs} {dir p : String} {e : Entry} (hmem : (p, e) ∈ fs)
    (hc : (sStarts p (dir ++ "/") && sEnds p ".dylib") = true) :
    p ∈ rglobDylibs fs dir := by
  unfold rglobDylibs
  refine List.mem_filterMap.mpr ⟨(p, e), hmem, ?_⟩
  have hif : (if (sStarts p (dir ++ "/") && sEnds p ".dylib") = true then
      some p else none) = some p := by rw [if_pos hc]
  exact hif

theorem mem_rglob_modifyMacho {fs : Fs} {b : String} {f : MachO → MachO} {dir p : String} :
    p ∈ rglobDylibs (modifyMacho fs b f) dir ↔ p ∈ rglobDylibs fs dir := by
  constructor
  · intro h
    rcases entry_of_mem_rglob h with ⟨e, he⟩
    rcases (mem_path_modifyMacho fs b f p).mp ⟨e, he⟩ with ⟨e', he'⟩
    exact mem_rglob_of he' (cond_of_mem_rglob h)
  · intro h
    rcases entry_of_mem_rglob h with ⟨e, he⟩
    rcases (mem_path_modifyMacho fs b f p).mpr ⟨e, he⟩ with ⟨e', he'⟩
    exact mem_rglob_of he' (cond_of_mem_rglob h)

-- ── More path-shape disjointness ─────────────────────────────────────────

theorem data_pluginsdir_slash (P : Params) :
    (pluginsDirOf P ++ "/").data = (frameworksDirOf P ++ "/").data ++ "plugins/".data := by
  unfold pluginsDirOf
  rw [String.data_append, String.data_append, String.data_append]
  rw [List.append_assoc, List.append_assoc]
  congr 1

theorem fwBinPath_ne_pluginschild (P : Params) (p : String)
    (hp : sStarts p (pluginsDirOf P ++ "/") = true) :
    ∀ n ∈ QT_FRAMEWORKS, fwBinPath P n ≠ p := by
  intro n hn heq
  rw [← heq] at hp
  rw [sStarts_iff] at hp
  rw [data_pluginsdir_slash, data_fwBinPath] at hp
  have hp2 : "plugins/".data <+: (n ++ ".framework/Versions/5/" ++ n).data :=
    (List.prefix_append_right_inj _).mp hp
  have hall : ∀ x ∈ QT_FRAMEWORKS,
      ("plugins/".data).isPrefixOf ((x ++ ".framework/Versions/5/" ++ x).data) = false := by
    decide
  have h3 := hall n hn
  rw [List.isPrefixOf_iff_prefix.mpr hp2] at h3
  simp at h3

-- ── The add-rpath folds ──────────────────────────────────────────────────

theorem fold_addR2_notouch (ra rb : String) (L : List String) :
    ∀ (fs : Fs) (p : String), (∀ q ∈ L, q ≠ p) →
      fsGet (L.foldl (fun fs q => addRpathAt (addRpathAt fs q ra) q rb) fs) p =
        fsGet fs p := by
  induction L with
  | nil => intro fs p _; rfl
  | cons q rest ih =>
    intro fs p hL
    have hqp : p ≠ q := fun h => hL q (List.mem_cons_self q rest) h.symm
    rw [List.foldl_cons, ih _ p (fun x hx => hL x (List.mem_cons_of_mem q hx))]
    rw [addRpathAt_get_ne _ q rb p hqp, addRpathAt_get_ne _ q ra p hqp]

theorem fold_addR2_spec (ra rb : String) (L : List String) :
    ∀ (fs : Fs) (p : String), p ∈ L → ∀ m, fsGet fs p = some (.macho m) →
      ∃ m', fsGet (L.foldl (fun fs q => addRpathAt (addRpathAt fs q ra) q rb) fs) p =
          some (.macho m') ∧
        m'.rpaths = pyAdd (pyAdd m.rpaths ra) rb ∧
        m'.deps = m.deps ∧ m'.instName = m.instName := by
  induction L with
  | nil => intro fs p hp; simp at hp
  | cons q rest ih =>
    intro fs p hp m hm
    rw [List.foldl_cons]
    by_cases hqp : q = p
    · subst hqp
      have h1 := addRpathAt_get_self hm ra
      have h2 := addRpathAt_get_self h1 rb
      by_cases hpr : q ∈ rest
      · rcases ih _ q hpr _ h2 with ⟨m', hm', hr', hd', hi'⟩
        refine ⟨m', hm', ?_, hd', hi'⟩
        rw [hr']
        have hra2 : ra ∈ pyAdd (pyAdd m.rpaths ra) rb :=
          mem_pyAdd_of_mem (mem_pyAdd_self m.rpaths ra) rb
        rw [pyAdd_of_mem hra2, pyAdd_of_mem (mem_pyAdd_self (pyAdd m.rpaths ra) rb)]
      · rw [fold_addR2_notouch ra rb rest _ q (fun x hx hxp => hpr (hxp ▸ hx))]
        exact ⟨_, h2, rfl, rfl, rfl⟩
    · have hm' : fsGet (addRpathAt (addRpathAt fs q ra) q rb) p = some (.macho m) := by
        rw [addRpathAt_get_ne _ q rb p (fun h => hqp h.symm),
          addRpathAt_get_ne _ q ra p (fun h => hqp h.symm)]
        exact hm
      have hpr : p ∈ rest := by
        rcases List.mem_cons.mp hp with h | h
        · exact absurd h.symm hqp
        · exact h
      exact ih _ p hpr m hm'

theorem fold_addRcond_notouch (rc : String) (π : String → String) (L : List String) :
    ∀ (fs : Fs) (p : String), (∀ n ∈ L, π n ≠ p) →
      fsGet (L.foldl (fun fs n =>
        if pExists fs (π n) then addRpathAt fs (π n) rc else fs) fs) p = fsGet fs p := by
  induction L with
  | nil => intro fs p _; rfl
  | cons n rest ih =>
    intro fs p hL
    rw [List.foldl_cons, ih _ p (fun x hx => hL x (List.mem_cons_of_mem n hx))]
    cases hc : pExists fs (π n) with
    | true =>
      simp only [hc, if_true]
      exact addRpathAt_get_ne fs (π n) rc p
        (fun h => hL n (List.mem_cons_self n rest) h.symm)
    | false => simp only [hc, Bool.false_eq_true, if_false]

theorem fold_addRcond_spec (rc : String) (π : String → String) (L : List String)
    (hinj : ∀ a ∈ L, ∀ b ∈ L, π a = π b → a = b) :
    ∀ (fs : Fs) (name : String), name ∈ L → ∀ m,
      fsGet fs (π name) = some (.macho m) →
      ∃ m', fsGet (L.foldl (fun fs n =>
          if pExists fs (π n) then addRpathAt fs (π n) rc else fs) fs) (π name) =
          some (.macho m') ∧
        m'.rpaths = pyAdd m.rpaths rc ∧ m'.deps = m.deps ∧ m'.instName = m.instName := by
  induction L with
  | nil => intro fs name hn; simp at hn
  | cons n rest ih =>
    intro fs name hn m hm
    rw [List.foldl_cons]
    have hinjr : ∀ a ∈ rest, ∀ b ∈ rest, π a = π b → a = b :=
      fun a ha b hb => hinj a (List.mem_cons_of_mem n ha) b (List.mem_cons_of_mem n hb)
    by_cases hπ : π n = π name
    · have hex : pExists fs (π n) = true := by
        rw [hπ]
        exact pExists_of_fsGet hm
      simp only [hex, if_true]
      have h1 : fsGet (addRpathAt fs (π n) rc) (π name) =
          some (.macho { m with rpaths := pyAdd m.rpaths rc }) := by
        rw [hπ]
        exact addRpathAt_get_self hm rc
      by_cases hnr : name ∈ rest
      · rcases ih hinjr _ name hnr _ h1 with ⟨m', hm', hr', hd', hi'⟩
        refine ⟨m', hm', ?_, hd', hi'⟩
        rw [hr']
        exact pyAdd_of_mem (mem_pyAdd_self m.rpaths rc)
      · have hnt : ∀ x ∈ rest, π x ≠ π name := by
          intro x hx hxe
          exact hnr ((hinj x (List.mem_cons_of_mem n hx) name hn hxe) ▸ hx)
        rw [fold_addRcond_notouch rc π rest _ (π name) hnt]
        exact ⟨_, h1, rfl, rfl, rfl⟩
    · have hnr : name ∈ rest := by
        rcases List.mem_cons.mp hn with h | h
        · exact absurd (congrArg π h.symm) hπ
        · exact h
      cases hex : pExists fs (π n) with
      | true =>
        simp only [hex, if_true]
        have hm2 : fsGet (addRpathAt fs (π n) rc) (π name) = some (.macho m) := by
          rw [addRpathAt_get_ne fs (π n) rc (π name) (fun h => hπ h.symm)]
          exact hm
        exact ih hinjr _ name hnr m hm2
      | false =>
        simp only [hex, Bool.false_eq_true, if_false]
        exact ih hinjr _ name hnr m hm

theorem rcond_starts {fs : Fs} {dir p : String} (h : p ∈ rglobDylibs fs dir) :
    sStarts p (dir ++ "/") = true := by
  have hc := cond_of_mem_rglob h
  simp only [Bool.and_eq_true] at hc
  exact hc.1

theorem rpathPhase_eq (P : Params) (fs : Fs) :
    rpathPhase P fs =
      QT_FRAMEWORKS.foldl
        (fun fs n => if pExists fs (fwBinPath P n) then
          addRpathAt fs (fwBinPath P n) "@loader_path/../../.." else fs)
        ((rglobDylibs
            (addRpathAt (addRpathAt fs P.pluginBin "@loader_path/Frameworks")
              P.pluginBin (P.gimpApp ++ "/Contents/Resources"))
            (pluginsDirOf P)).foldl
          (fun fs p => addRpathAt (addRpathAt fs p "@loader_path/../..") p
            "@executable_path/../Frameworks")
          (addRpathAt (addRpathAt fs P.pluginBin "@loader_path/Frameworks")
            P.pluginBin (P.gimpApp ++ "/Contents/Resources"))) := rfl

-- ── C4: the runtime search paths added by bundle ─────────────────────────

/-- C4: on a successful bundle run (with the plugin binary located
neither inside `Frameworks/plugins` nor at a bundled framework-binary
path), the rpath phase adds exactly the claimed runtime search paths to
the state it receives: the plugin binary gains `@loader_path/Frameworks`
then `<GIMP_APP>/Contents/Resources`; every plugin dylib gains
`@loader_path/../..` then `@executable_path/../Frameworks`; every
existing bundled framework binary gains `@loader_path/../../..`; each
rpath is appended only when not already present (`pyAdd`), and every
other path's entry is left completely unchanged. -/
theorem bundle_rpaths_added (P : Params) (fuel : Nat) (fs0 : Fs) (out : BundleOut)
    (h : bundle P fuel fs0 = some (.ok out))
    (hyp1 : sStarts P.pluginBin (pluginsDirOf P ++ "/") = false)
    (hyp2 : ∀ n ∈ QT_FRAMEWORKS, fwBinPath P n ≠ P.pluginBin) :
    ∃ fsPre, out.fs = rpathPhase P fsPre ∧
      ((∀ m, fsGet fsPre P.pluginBin = some (.macho m) →
        ∃ m', fsGet out.fs P.pluginBin = some (.macho m') ∧
          m'.rpaths = pyAdd (pyAdd m.rpaths "@loader_path/Frameworks")
            (P.gimpApp ++ "/Contents/Resources")) ∧
      (∀ p ∈ rglobDylibs fsPre (pluginsDirOf P), ∀ m, fsGet fsPre p = some (.macho m) →
        ∃ m', fsGet out.fs p = some (.macho m') ∧
          m'.rpaths = pyAdd (pyAdd m.rpaths "@loader_path/../..")
            "@executable_path/../Frameworks") ∧
      (∀ name ∈ QT_FRAMEWORKS, ∀ m,
        fsGet fsPre (fwBinPath P name) = some (.macho m) →
        ∃ m', fsGet out.fs (fwBinPath P name) = some (.macho m') ∧
          m'.rpaths = pyAdd m.rpaths "@loader_path/../../..") ∧
      (∀ p, p ≠ P.pluginBin → p ∉ rglobDylibs fsPre (pluginsDirOf P) →
        (∀ name ∈ QT_FRAMEWORKS, p ≠ fwBinPath P name) →
        fsGet out.fs p = fsGet fsPre p)) := by
  rcases bundle_ok_inv P fuel fs0 out h with ⟨fs2, w, hfw, hwk, hproc, hfs, hlog, hdlog⟩
  refine ⟨remapPhase P (setIdsPhase P w.fs) out.processed, hfs, ?_, ?_, ?_, ?_⟩
  all_goals
    have hrg : ∀ q, q ∈ rglobDylibs
        (addRpathAt (addRpathAt (remapPhase P (setIdsPhase P w.fs) out.processed)
          P.pluginBin "@loader_path/Frameworks")
          P.pluginBin (P.gimpApp ++ "/Contents/Resources")) (pluginsDirOf P) ↔
        q ∈ rglobDylibs (remapPhase P (setIdsPhase P w.fs) out.processed)
          (pluginsDirOf P) :=
      fun q => Iff.trans mem_rglob_modifyMacho mem_rglob_modifyMacho
  · intro m hm
    have h1 := addRpathAt_get_self hm "@loader_path/Frameworks"
    have h2 := addRpathAt_get_self h1 (P.gimpApp ++ "/Contents/Resources")
    have hnt1 : ∀ q ∈ rglobDylibs
        (addRpathAt (addRpathAt (remapPhase P (setIdsPhase P w.fs) out.processed)
          P.pluginBin "@loader_path/Frameworks")
          P.pluginBin (P.gimpApp ++ "/Contents/Resources")) (pluginsDirOf P),
        q ≠ P.pluginBin := by
      intro q hq hqe
      have hcs := rcond_starts hq
      rw [hqe] at hcs
      rw [hcs] at hyp1
      simp at hyp1
    rw [hfs, rpathPhase_eq]
    rw [fold_addRcond_notouch _ (fwBinPath P) QT_FRAMEWORKS _ P.pluginBin hyp2]
    rw [fold_addR2_notouch _ _ _ _ P.pluginBin hnt1]
    exact ⟨_, h2, rfl⟩
  · intro p hp m hm
    have hps : sStarts p (pluginsDirOf P ++ "/") = true := rcond_starts hp
    have hppb : p ≠ P.pluginBin := by
      intro he
      rw [he] at hps
      rw [hps] at hyp1
      simp at hyp1
    have hmA : fsGet (addRpathAt (addRpathAt
        (remapPhase P (setIdsPhase P w.fs) out.processed)
        P.pluginBin "@loader_path/Frameworks")
        P.pluginBin (P.gimpApp ++ "/Contents/Resources")) p = some (.macho m) := by
      rw [addRpathAt_get_ne _ _ _ p hppb, addRpathAt_get_ne _ _ _ p hppb]
      exact hm
    have hpA := (hrg p).mpr hp
    rcases fold_addR2_spec "@loader_path/../.." "@executable_path/../Frameworks"
      _ _ p hpA m hmA with ⟨m', hm', hr', _, _⟩
    rw [hfs, rpathPhase_eq]
    rw [fold_addRcond_notouch _ (fwBinPath P) QT_FRAMEWORKS _ p
      (fwBinPath_ne_pluginschild P p hps)]
    exact ⟨m', hm', hr'⟩
  · intro name hn m hm
    have hmA : fsGet (addRpathAt (addRpathAt
        (remapPhase P (setIdsPhase P w.fs) out.processed)
        P.pluginBin "@loader_path/Frameworks")
        P.pluginBin (P.gimpApp ++ "/Contents/Resources")) (fwBinPath P name) =
        some (.macho m) := by
      rw [addRpathAt_get_ne _ _ _ _ (hyp2 name hn),
        addRpathAt_get_ne _ _ _ _ (hyp2 name hn)]
      exact hm
    have hnt : ∀ q ∈ rglobDylibs
        (addRpathAt (addRpathAt (remapPhase P (setIdsPhase P w.fs) out.processed)
          P.pluginBin "@loader_path/Frameworks")
          P.pluginBin (P.gimpApp ++ "/Contents/Resources")) (pluginsDirOf P),
        q ≠ fwBinPath P name := by
      intro q hq hqe
      exact (fwBinPath_ne_pluginschild P q (rcond_starts hq) name hn) hqe.symm
    have hm3 : fsGet ((rglobDylibs
        (addRpathAt (addRpathAt (remapPhase P (setIdsPhase P w.fs) out.processed)
          P.pluginBin "@loader_path/Frameworks")
          P.pluginBin (P.gimpApp ++ "/Contents/Resources")) (pluginsDirOf P)).foldl
        (fun fs p => addRpathAt (addRpathAt fs p "@loader_path/../..") p
          "@executable_path/../Frameworks")
        (addRpathAt (addRpathAt (remapPhase P (setIdsPhase P w.fs) out.processed)
          P.pluginBin "@loader_path/Frameworks")
          P.pluginBin (P.gimpApp ++ "/Contents/Resources"))) (fwBinPath P name) =
        some (.macho m) := by
      rw [fold_addR2_notouch _ _ _ _ _ hnt]
      exact hmA
    rcases fold_addRcond_spec "@loader_path/../../.." (fwBinPath P) QT_FRAMEWORKS
      (fwBinPath_inj P) _ name hn m hm3 with ⟨m', hm', hr', _, _⟩
    rw [hfs, rpathPhase_eq]
    exact ⟨m', hm', hr'⟩
  · intro p hpb hprg hpfw
    have hnt1 : ∀ q ∈ rglobDylibs
        (addRpathAt (addRpathAt (remapPhase P (setIdsPhase P w.fs) out.processed)
          P.pluginBin "@loader_path/Frameworks")
          P.pluginBin (P.gimpApp ++ "/Contents/Resources")) (pluginsDirOf P),
        q ≠ p := by
      intro q hq hqe
      exact hprg (hqe ▸ (hrg q).mp hq)
    rw [hfs, rpathPhase_eq]
    rw [fold_addRcond_notouch _ (fwBinPath P) QT_FRAMEWORKS _ p
      (fun n hn he => (hpfw n hn) he.symm)]
    rw [fold_addR2_notouch _ _ _ _ p hnt1]
    rw [addRpathAt_get_ne _ _ _ p hpb, addRpathAt_get_ne _ _ _ p hpb]

theorem bundle_rpaths_added_inst :
    bundle Pc 20 fs0c = some (.ok outc) ∧
    sStarts Pc.pluginBin (pluginsDirOf Pc ++ "/") = false ∧
    (∀ n ∈ QT_FRAMEWORKS, fwBinPath Pc n ≠ Pc.pluginBin) ∧
    (∃ fsPre, outc.fs = rpathPhase Pc fsPre ∧
      ((∀ m, fsGet fsPre Pc.pluginBin = some (.macho m) →
        ∃ m', fsGet outc.fs Pc.pluginBin = some (.macho m') ∧
          m'.rpaths = pyAdd (pyAdd m.rpaths "@loader_path/Frameworks")
            (Pc.gimpApp ++ "/Contents/Resources")) ∧
      (∀ p ∈ rglobDylibs fsPre (pluginsDirOf Pc), ∀ m, fsGet fsPre p = some (.macho m) →
        ∃ m', fsGet outc.fs p = some (.macho m') ∧
          m'.rpaths = pyAdd (pyAdd m.rpaths "@loader_path/../..")
            "@executable_path/../Frameworks") ∧
      (∀ name ∈ QT_FRAMEWORKS, ∀ m,
        fsGet fsPre (fwBinPath Pc name) = some (.macho m) →
        ∃ m', fsGet outc.fs (fwBinPath Pc name) = some (.macho m') ∧
          m'.rpaths = pyAdd m.rpaths "@loader_path/../../..") ∧
      (∀ p, p ≠ Pc.pluginBin → p ∉ rglobDylibs fsPre (pluginsDirOf Pc) →
        (∀ name ∈ QT_FRAMEWORKS, p ≠ fwBinPath Pc name) →
        fsGet outc.fs p = fsGet fsPre p))) :=
  ⟨by decide, by decide, by decide,
   bundle_rpaths_added Pc 20 fs0c outc (by decide) (by decide) (by decide)⟩

-- ── Region separation between the Qt prefix and the bundle directory ─────

theorem region_disj (P : Params) (hsep1 : sStarts P.qt P.bundleDir = false)
    (hsep2 : sStarts P.bundleDir P.qt = false) (s : List Char)
    (h1 : P.qt.data <+: s) (h2 : P.bundleDir.data <+: s) : False := by
  rcases List.prefix_or_prefix_of_prefix h1 h2 with h | h
  · rw [sStarts_iff.mpr h] at hsep2
    simp at hsep2
  · rw [sStarts_iff.mpr h] at hsep1
    simp at hsep1

theorem region_prefix {q t : String}
    (h : (q == t || sStarts q (t ++ "/")) = true) : t.data <+: q.data := by
  cases hq : (q == t) with
  | true => rw [beq_iff_eq.mp hq]
  | false =>
    rw [hq] at h
    simp only [Bool.false_or] at h
    have h2 := sStarts_iff.mp h
    rw [String.data_append] at h2
    exact (List.prefix_append t.data "/".data).trans h2

theorem data_qtFwSrc_app (P : Params) (n s : String) :
    (qtFwSrc P n ++ s).data =
      P.qt.data ++ ("/lib/".data ++ (n.data ++ (".framework".data ++ s.data))) := by
  unfold qtFwSrc
  simp [String.data_append, List.append_assoc]

theorem qt_prefix_qtFwSrc_app (P : Params) (n s : String) :
    P.qt.data <+: (qtFwSrc P n ++ s).data := by
  rw [data_qtFwSrc_app]
  exact List.prefix_append _ _

theorem qt_prefix_qtFwSrc (P : Params) (n : String) :
    P.qt.data <+: (qtFwSrc P n).data := by
  unfold qtFwSrc
  simp only [String.data_append, List.append_assoc]
  exact List.prefix_append _ _

theorem data_qtFwDst_app (P : Params) (n s : String) :
    (qtFwDst P n ++ s).data =
      P.bundleDir.data ++ ("/Frameworks/".data ++ (n.data ++ (".framework".data ++ s.data))) := by
  unfold qtFwDst frameworksDirOf
  simp [String.data_append, List.append_assoc]

theorem bd_prefix_qtFwDst_app (P : Params) (n s : String) :
    P.bundleDir.data <+: (qtFwDst P n ++ s).data := by
  rw [data_qtFwDst_app]
  exact List.prefix_append _ _

theorem bd_prefix_qtFwDst (P : Params) (n : String) :
    P.bundleDir.data <+: (qtFwDst P n).data := by
  unfold qtFwDst frameworksDirOf
  simp only [String.data_append, List.append_assoc]
  exact List.prefix_append _ _

-- ── Irrelevance of bundle-region writes for other paths ──────────────────

theorem find?_filter_true_of (l : Fs) (keep : String × Entry → Bool) (q : String)
    (h : ∀ x : String × Entry, x.1 = q → keep x = true) :
    (l.filter keep).find? (fun x => x.1 == q) = l.find? (fun x => x.1 == q) := by
  induction l with
  | nil => rfl
  | cons a t ih =>
    by_cases haq : a.1 = q
    · have hk := h a haq
      have hb : (a.1 == q) = true := beq_iff_eq.mpr haq
      simp [List.filter_cons, hk, List.find?_cons, hb]
    · have hb : (a.1 == q) = false := beq_eq_false_iff_ne.mpr haq
      cases hk : keep a with
      | true => simp [List.filter_cons, hk, List.find?_cons, hb, ih]
      | false => simp [List.filter_cons, hk, List.find?_cons, hb, ih]

theorem any_filter_eq_of (l : Fs) (keep pred : String × Entry → Bool)
    (h : ∀ x ∈ l, pred x = true → keep x = true) :
    (l.filter keep).any pred = l.any pred := by
  induction l with
  | nil => rfl
  | cons a t ih =>
    have hrest : ∀ x ∈ t, pred x = true → keep x = true :=
      fun x hx => h x (List.mem_cons_of_mem a hx)
    cases hp : pred a with
    | true =>
      have hk := h a (List.mem_cons_self a t) hp
      simp [List.filter_cons, hk, List.any_cons, hp]
    | false =>
      cases hk : keep a with
      | true => simp [List.filter_cons, hk, List.any_cons, hp, ih hrest]
      | false => simp [List.filter_cons, hk, List.any_cons, hp, ih hrest]

theorem fsGet_rmTree_of_notregion {fs : Fs} {t p : String}
    (h : (p == t || sStarts p (t ++ "/")) = false) :
    fsGet (rmTree fs t) p = fsGet fs p := by
  unfold fsGet rmTree
  rw [find?_filter_true_of fs _ p]
  intro x hx
  rw [hx, h]
  rfl

theorem pExists_rmTree_of_disj {fs : Fs} {t p : String}
    (hdisj : ∀ q : String, (q == t || sStarts q (t ++ "/")) = true →
      (q == p || sStarts q (p ++ "/")) = false) :
    pExists (rmTree fs t) p = pExists fs p := by
  unfold pExists rmTree
  apply any_filter_eq_of
  intro x _ hpred
  cases hq : (x.1 == t || sStarts x.1 (t ++ "/")) with
  | false => simp [hq]
  | true =>
    rw [hdisj x.1 hq] at hpred
    simp at hpred

theorem copyTree_appended_region (fs : Fs) (src dst : String) :
    ∀ y ∈ fs.filterMap (fun x =>
      if x.1 == src then some (dst, x.2)
      else if sStarts x.1 (src ++ "/") then
        some (dst ++ String.mk (x.1.data.drop src.data.length), x.2)
      else none), dst.data <+: y.1.data := by
  intro y hy
  rcases List.mem_filterMap.mp hy with ⟨x, hx, hr⟩
  by_cases h1 : (x.1 == src) = true
  · rw [if_pos h1] at hr
    injection hr with hr'
    rw [← hr']
  · rw [if_neg h1] at hr
    by_cases h2 : sStarts x.1 (src ++ "/") = true
    · rw [if_pos h2] at hr
      injection hr with hr'
      rw [← hr']
      rw [String.data_append]
      exact List.prefix_append _ _
    · rw [if_neg h2] at hr
      simp at hr

theorem find?_append_filt (l₁ l₂ : Fs) (pr : String × Entry → Bool) :
    (l₁ ++ l₂).find? pr =
      match l₁.find? pr with
      | some y => some y
      | none => l₂.find? pr := by
  induction l₁ with
  | nil => simp
  | cons a t ih =>
    cases hp : pr a with
    | true => simp [List.find?_cons, hp]
    | false => simp [List.find?_cons, hp, ih]

theorem fsGet_copyTree_outside {fs : Fs} {src dst p : String}
    (h : ¬ dst.data <+: p.data) :
    fsGet (copyTree fs src dst) p = fsGet fs p := by
  unfold fsGet copyTree
  rw [find?_append_filt]
  rcases hf : fs.find? (fun x => x.1 == p) with _ | y
  · have hnone : (fs.filterMap (fun x =>
        if x.1 == src then some (dst, x.2)
        else if sStarts x.1 (src ++ "/") then
          some (dst ++ String.mk (x.1.data.drop src.data.length), x.2)
        else none)).find? (fun x => x.1 == p) = none := by
      rw [List.find?_eq_none]
      intro y hy hpy
      have hpre := copyTree_appended_region fs src dst y hy
      rw [beq_iff_eq.mp hpy] at hpre
      exact h hpre
    rw [hf, hnone]
  · rw [hf]

theorem pExists_copyTree_outside {fs : Fs} {src dst p : String}
    (h : ∀ q : String, dst.data <+: q.data →
      (q == p || sStarts q (p ++ "/")) = false) :
    pExists (copyTree fs src dst) p = pExists fs p := by
  unfold pExists copyTree
  rw [List.any_append]
  have hnone : (fs.filterMap (fun x =>
      if x.1 == src then some (dst, x.2)
      else if sStarts x.1 (src ++ "/") then
        some (dst ++ String.mk (x.1.data.drop src.data.length), x.2)
      else none)).any (fun x => x.1 == p || sStarts x.1 (p ++ "/")) = false := by
    rw [List.any_eq_false]
    intro y hy
    have hpre := copyTree_appended_region fs src dst y hy
    rw [h y.1 hpre]
    simp
  rw [hnone]
  simp

-- ── Characterization of copytree at the destination ──────────────────────

theorem append_right_nil_of_self {a s : String} (h : a = a ++ s) : s = "" := by
  have hd := congrArg String.data h
  rw [String.data_append] at hd
  have hlen := congrArg List.length hd
  rw [List.length_append] at hlen
  have h0 : s.data.length = 0 := by omega
  apply String.ext
  rw [List.length_eq_zero.mp h0]

theorem sStarts_append_slash {dst s : String} (h1 : sStarts s "/" = true) :
    sStarts (dst ++ s) (dst ++ "/") = true := by
  rw [sStarts_iff, String.data_append, String.data_append]
  exact (List.prefix_append_right_inj dst.data).mpr (sStarts_iff.mp h1)

theorem rn_path_iff (src dst s : String) (hs : s = "" ∨ sStarts s "/" = true)
    (x : String × Entry) :
    (match (if x.1 == src then some (dst, x.2)
      else if sStarts x.1 (src ++ "/") then
        some (dst ++ String.mk (x.1.data.drop src.data.length), x.2)
      else none : Option (String × Entry)) with
     | some y => y.1 = dst ++ s
     | none => False) ↔ x.1 = src ++ s := by
  by_cases h1 : (x.1 == src) = true
  · rw [if_pos h1]
    show dst = dst ++ s ↔ x.1 = src ++ s
    constructor
    · intro hd
      have hs0 : s = "" := append_right_nil_of_self hd
      rw [beq_iff_eq.mp h1, hs0]
      exact (String.append_empty src).symm
    · intro hx
      have hsrc : src = src ++ s := by rw [← hx, beq_iff_eq.mp h1]
      have hs0 : s = "" := append_right_nil_of_self hsrc
      rw [hs0]
      exact (String.append_empty dst).symm
  · rw [if_neg h1]
    by_cases h2 : sStarts x.1 (src ++ "/") = true
    · rw [if_pos h2]
      show dst ++ String.mk (x.1.data.drop src.data.length) = dst ++ s ↔ x.1 = src ++ s
      have hpre : (src ++ "/").data <+: x.1.data := sStarts_iff.mp h2
      have hsrcpre : src.data <+: x.1.data := by
        rw [String.data_append] at hpre
        exact (List.prefix_append src.data "/".data).trans hpre
      rcases hsrcpre with ⟨t, ht⟩
      have hdrop : x.1.data.drop src.data.length = t := by
        rw [← ht]
        exact List.drop_left _ _
      constructor
      · intro hd
        have h3 : String.mk (x.1.data.drop src.data.length) = s := by
          have h4 := congrArg String.data hd
          rw [String.data_append, String.data_append] at h4
          exact String.ext (List.append_cancel_left h4)
        apply String.ext
        rw [String.data_append, ← ht]
        have h5 : t = s.data := by
          rw [← hdrop]
          exact congrArg String.data h3
        rw [h5]
      · intro hx
        have h5 : x.1.data.drop src.data.length = s.data := by
          rw [hx, String.data_append]
          exact List.drop_left _ _
        rw [h5]
    · rw [if_neg h2]
      show False ↔ x.1 = src ++ s
      constructor
      · intro hf
        exact hf.elim
      · intro hx
        rcases hs with hs0 | hs1
        · rw [hs0, String.append_empty] at hx
          exact h1 (beq_iff_eq.mpr hx)
        · exact h2 (by rw [hx]; exact sStarts_append_slash hs1)

theorem find?_filterMap_path (rn : String × Entry → Option (String × Entry))
    (q q' : String)
    (hiff : ∀ x : String × Entry,
      (match rn x with | some y => y.1 = q' | none => False) ↔ x.1 = q)
    (hval : ∀ x y, rn x = some y → y.2 = x.2) :
    ∀ fs : Fs, (fs.filterMap rn).find? (fun y => y.1 == q') =
      (fs.find? (fun x => x.1 == q)).map (fun x => (q', x.2)) := by
  intro fs
  induction fs with
  | nil => rfl
  | cons a t ih =>
    rcases hrn : rn a with _ | y
    · have hne : a.1 ≠ q := by
        intro he
        have h0 := (hiff a).mpr he
        rw [hrn] at h0
        exact h0
      have hb : (a.1 == q) = false := beq_eq_false_iff_ne.mpr hne
      rw [List.filterMap_cons_none hrn]
      simp [List.find?_cons, hb, ih]
    · rw [List.filterMap_cons_some hrn]
      cases hy1 : (y.1 == q') with
      | true =>
        have h0 : (match rn a with | some y => y.1 = q' | none => False) := by
          rw [hrn]
          exact beq_iff_eq.mp hy1
        have haq : (a.1 == q) = true := beq_iff_eq.mpr ((hiff a).mp h0)
        have hy2 := hval a y hrn
        have hy1' : y.1 = q' := beq_iff_eq.mp hy1
        simp only [List.find?_cons, hy1, haq, Option.map_some']
        rcases y with ⟨ya, yb⟩
        simp only at hy2 hy1'
        rw [hy1', hy2]
      | false =>
        have hne : a.1 ≠ q := by
          intro he
          have h0 := (hiff a).mpr he
          rw [hrn] at h0
          exact (beq_eq_false_iff_ne.mp hy1) h0
        have hb : (a.1 == q) = false := beq_eq_false_iff_ne.mpr hne
        simp [List.find?_cons, hy1, hb, ih]

theorem copyTree_get_dst {fs : Fs} {src dst : String} (s : String)
    (hs : s = "" ∨ sStarts s "/" = true)
    (hnodst : ∀ x ∈ fs, (x.1 == dst || sStarts x.1 (dst ++ "/")) = false) :
    fsGet (copyTree fs src dst) (dst ++ s) = fsGet fs (src ++ s) := by
  unfold fsGet copyTree
  rw [find?_append_filt]
  have hfsnone : fs.find? (fun x => x.1 == dst ++ s) = none := by
    rw [List.find?_eq_none]
    intro x hx hpx
    have hx1 : x.1 = dst ++ s := beq_iff_eq.mp hpx
    have hreg : (x.1 == dst || sStarts x.1 (dst ++ "/")) = true := by
      rcases hs with h0 | h1
      · rw [hx1, h0, String.append_empty]
        simp
      · rw [hx1, sStarts_append_slash h1]
        simp
    rw [hnodst x hx] at hreg
    simp at hreg
  rw [hfsnone]
  have hval : ∀ (x y : String × Entry),
      (if x.1 == src then some (dst, x.2)
        else if sStarts x.1 (src ++ "/") then
          some (dst ++ String.mk (x.1.data.drop src.data.length), x.2)
        else none : Option (String × Entry)) = some y → y.2 = x.2 := by
    intro x y h
    by_cases h1 : (x.1 == src) = true
    · rw [if_pos h1] at h
      injection h with h'
      rw [← h']
    · rw [if_neg h1] at h
      by_cases h2 : sStarts x.1 (src ++ "/") = true
      · rw [if_pos h2] at h
        injection h with h'
        rw [← h']
      · rw [if_neg h2] at h
        simp at h
  rw [find?_filterMap_path _ (src ++ s) (dst ++ s) (rn_path_iff src dst s hs) hval fs]
  cases hF : fs.find? (fun x => x.1 == src ++ s) with
  | none => rfl
  | some x => rfl

-- ── The framework-copy loop ──────────────────────────────────────────────

theorem qtFwLoop_cons (P : Params) (fs : Fs) (n : String) (rest : List String) :
    qtFwLoop P fs (n :: rest) =
      if !pExists fs (qtFwSrc P n) then .error fs
      else qtFwLoop P (qtStep P fs n) rest := rfl

theorem data_qtFwDst (P : Params) (n : String) :
    (qtFwDst P n).data = (frameworksDirOf P ++ "/").data ++ (n ++ ".framework").data := by
  unfold qtFwDst
  simp [String.data_append, List.append_assoc]

theorem bd_prefix_frameworksDir (P : Params) :
    P.bundleDir.data <+: (frameworksDirOf P).data := by
  unfold frameworksDirOf
  rw [String.data_append]
  exact List.prefix_append _ _

theorem bd_prefix_of_dstregion (P : Params) {n q : String}
    (h : (q == qtFwDst P n || sStarts q (qtFwDst P n ++ "/")) = true) :
    P.bundleDir.data <+: q.data :=
  (bd_prefix_qtFwDst P n).trans ( region_prefix h)

theorem qtStep_get_qt (P : Params) (hsep1 : sStarts P.qt P.bundleDir = false)
    (hsep2 : sStarts P.bundleDir P.qt = false) (fs : Fs) (n p : String)
    (hp : P.qt.data <+: p.data) :
    fsGet (qtStep P fs n) p = fsGet fs p := by
  unfold qtStep
  rw [fsGet_copyTree_outside]
  · cases hrm : pExists fs (qtFwDst P n) with
    | true =>
      simp only [hrm, if_true]
      apply fsGet_rmTree_of_notregion
      cases hreg : (p == qtFwDst P n || sStarts p (qtFwDst P n ++ "/")) with
      | false => rfl
      | true =>
        exact (region_disj P hsep1 hsep2 p.data hp (bd_prefix_of_dstregion P hreg)).elim
    | false => simp only [hrm, Bool.false_eq_true, if_false]
  · intro hdst
    exact region_disj P hsep1 hsep2 p.data hp ((bd_prefix_qtFwDst P n).trans hdst)

theorem qtStep_pExists_qt (P : Params) (hsep1 : sStarts P.qt P.bundleDir = false)
    (hsep2 : sStarts P.bundleDir P.qt = false) (fs : Fs) (n t : String)
    (ht : P.qt.data <+: t.data) :
    pExists (qtStep P fs n) t = pExists fs t := by
  unfold qtStep
  rw [pExists_copyTree_outside]
  · cases hrm : pExists fs (qtFwDst P n) with
    | true =>
      simp only [hrm, if_true]
      apply pExists_rmTree_of_disj
      intro q hq
      cases hpq : (q == t || sStarts q (t ++ "/")) with
      | false => rfl
      | true =>
        have hqt : P.qt.data <+: q.data := ht.trans ( region_prefix hpq)
        have hbd : P.bundleDir.data <+: q.data :=
          (bd_prefix_qtFwDst P n).trans ( region_prefix hq)
        exact (region_disj P hsep1 hsep2 q.data hqt hbd).elim
    | false => simp only [hrm, Bool.false_eq_true, if_false]
  · intro q hdst
    cases hpq : (q == t || sStarts q (t ++ "/")) with
    | false => rfl
    | true =>
      have hqt : P.qt.data <+: q.data := ht.trans ( region_prefix hpq)
      have hbd : P.bundleDir.data <+: q.data := (bd_prefix_qtFwDst P n).trans hdst
      exact (region_disj P hsep1 hsep2 q.data hqt hbd).elim

theorem prefix_comp_cancel {A x y : List Char}
    (h : A ++ x <+: A ++ y ∨ A ++ y <+: A ++ x) : x <+: y ∨ y <+: x := by
  rcases h with h | h
  · exact Or.inl ((List.prefix_append_right_inj A).mp h)
  · exact Or.inr ((List.prefix_append_right_inj A).mp h)

theorem qtStep_get_otherdst (P : Params) (fs : Fs) (n m' p : String)
    (hp : (qtFwDst P m').data <+: p.data)
    (hinc1 : ¬ ((n ++ ".framework").data <+: (m' ++ ".framework").data))
    (hinc2 : ¬ ((m' ++ ".framework").data <+: (n ++ ".framework").data)) :
    fsGet (qtStep P fs n) p = fsGet fs p := by
  have hnotn : ¬ (qtFwDst P n).data <+: p.data := by
    intro hn
    rcases List.prefix_or_prefix_of_prefix hn hp with h | h
    · rw [data_qtFwDst, data_qtFwDst] at h
      rcases prefix_comp_cancel (Or.inl h) with h' | h'
      · exact hinc1 h'
      · exact hinc2 h'
    · rw [data_qtFwDst, data_qtFwDst] at h
      rcases prefix_comp_cancel (Or.inl h) with h' | h'
      · exact hinc2 h'
      · exact hinc1 h'
  unfold qtStep
  rw [fsGet_copyTree_outside hnotn]
  cases hrm : pExists fs (qtFwDst P n) with
  | true =>
    simp only [hrm, if_true]
    apply fsGet_rmTree_of_notregion
    cases hreg : (p == qtFwDst P n || sStarts p (qtFwDst P n ++ "/")) with
    | false => rfl
    | true => exact absurd ( region_prefix hreg) hnotn
  | false => simp only [hrm, Bool.false_eq_true, if_false]

theorem rmTree_no_region (fs : Fs) (t : String) :
    ∀ x ∈ rmTree fs t, (x.1 == t || sStarts x.1 (t ++ "/")) = false := by
  intro x hx
  have := (List.mem_filter.mp hx).2
  cases h : (x.1 == t || sStarts x.1 (t ++ "/")) with
  | false => rfl
  | true => rw [h] at this; simp at this

theorem qtFwLoop_error (P : Params) (hsep1 : sStarts P.qt P.bundleDir = false)
    (hsep2 : sStarts P.bundleDir P.qt = false) :
    ∀ (names : List String) (fs : Fs),
      (∃ name ∈ names, pExists fs (qtFwSrc P name) = false) →
      ∃ fsE, qtFwLoop P fs names = .error fsE := by
  intro names
  induction names with
  | nil =>
    intro fs h
    rcases h with ⟨name, hn, _⟩
    simp at hn
  | cons n rest ih =>
    intro fs h
    cases hchk : pExists fs (qtFwSrc P n) with
    | false =>
      refine ⟨fs, ?_⟩
      rw [qtFwLoop_cons]
      simp [hchk]
    | true =>
      rcases h with ⟨name, hn, hmiss⟩
      have hnr : name ∈ rest := by
        rcases List.mem_cons.mp hn with h' | h'
        · rw [h'] at hmiss
          rw [hmiss] at hchk
          simp at hchk
        · exact h'
      have hmiss' : pExists (qtStep P fs n) (qtFwSrc P name) = false := by
        rw [qtStep_pExists_qt P hsep1 hsep2 fs n _ (qt_prefix_qtFwSrc P name)]
        exact hmiss
      rcases ih (qtStep P fs n) ⟨name, hnr, hmiss'⟩ with ⟨fsE, hE⟩
      refine ⟨fsE, ?_⟩
      rw [qtFwLoop_cons]
      simp [hchk, hE]

theorem qtFwLoop_get_preserved (P : Params) :
    ∀ (names : List String) (fs fs' : Fs) (p : String),
      qtFwLoop P fs names = .ok fs' →
      (∀ m' ∈ names, ∀ gs : Fs, fsGet (qtStep P gs m') p = fsGet gs p) →
      fsGet fs' p = fsGet fs p := by
  intro names
  induction names with
  | nil =>
    intro fs fs' p hok _
    injection hok with h'
    rw [← h']
  | cons n rest ih =>
    intro fs fs' p hok hpres
    rw [qtFwLoop_cons] at hok
    cases hchk : pExists fs (qtFwSrc P n) with
    | false => rw [hchk] at hok; simp at hok
    | true =>
      rw [hchk] at hok
      simp only [Bool.not_true, Bool.false_eq_true, if_false] at hok
      have h1 := ih (qtStep P fs n) fs' p hok
        (fun m' hm' => hpres m' (List.mem_cons_of_mem n hm'))
      rw [h1, hpres n (List.mem_cons_self n rest) fs]

theorem qtFwLoop_ok (P : Params) (hsep1 : sStarts P.qt P.bundleDir = false)
    (hsep2 : sStarts P.bundleDir P.qt = false) :
    ∀ (names : List String),
      (∀ a ∈ names, ∀ b ∈ names,
        ((a ++ ".framework").data.isPrefixOf ((b ++ ".framework").data)) = true → a = b) →
      names.Nodup →
      ∀ (fs fs' : Fs), qtFwLoop P fs names = .ok fs' →
        (∀ name ∈ names, pExists fs (qtFwSrc P name) = true) ∧
        (∀ name ∈ names, ∀ s : String, (s = "" ∨ sStarts s "/" = true) →
          fsGet fs' (qtFwDst P name ++ s) = fsGet fs (qtFwSrc P name ++ s)) := by
  intro names
  induction names with
  | nil => intro _ _ fs fs' _; exact ⟨fun name hn => by simp at hn, fun name hn => by simp at hn⟩
  | cons n rest ih =>
    intro hinc hnd fs fs' hok
    rw [qtFwLoop_cons] at hok
    cases hchk : pExists fs (qtFwSrc P n) with
    | false => rw [hchk] at hok; simp at hok
    | true =>
      rw [hchk] at hok
      simp only [Bool.not_true, Bool.false_eq_true, if_false] at hok
      have hincr : ∀ a ∈ rest, ∀ b ∈ rest,
          ((a ++ ".framework").data.isPrefixOf ((b ++ ".framework").data)) = true → a = b :=
        fun a ha b hb => hinc a (List.mem_cons_of_mem n ha) b (List.mem_cons_of_mem n hb)
      have hndr : rest.Nodup := (List.nodup_cons.mp hnd).2
      have hnnr : n ∉ rest := (List.nodup_cons.mp hnd).1
      rcases ih hincr hndr (qtStep P fs n) fs' hok with ⟨hex, hcopy⟩
      constructor
      · intro name hn
        rcases List.mem_cons.mp hn with h' | h'
        · rw [h']
          exact hchk
        · have := hex name h'
          rw [qtStep_pExists_qt P hsep1 hsep2 fs n _ (qt_prefix_qtFwSrc P name)] at this
          exact this
      · intro name hn s hs
        rcases List.mem_cons.mp hn with h' | h'
        · subst h'
          have hpres : ∀ m' ∈ rest, ∀ gs : Fs,
              fsGet (qtStep P gs m') (qtFwDst P name ++ s) = fsGet gs (qtFwDst P name ++ s) := by
            intro m' hm' gs
            have hmn : m' ≠ name := fun he => hnnr (he ▸ hm')
            have hdpre : (qtFwDst P name).data <+: (qtFwDst P name ++ s).data := by
              rw [String.data_append]
              exact List.prefix_append _ _
            refine qtStep_get_otherdst P gs m' name _ hdpre ?_ ?_
            · intro hpre
              exact hmn (hinc m' (List.mem_cons_of_mem name hm') name
                (List.mem_cons_self name rest) (List.isPrefixOf_iff_prefix.mpr hpre))
            · intro hpre
              exact hmn ((hinc name (List.mem_cons_self name rest) m'
                (List.mem_cons_of_mem name hm') (List.isPrefixOf_iff_prefix.mpr hpre)).symm)
          have h1 := qtFwLoop_get_preserved P rest (qtStep P fs name) fs'
            (qtFwDst P name ++ s) hok hpres
          rw [h1]
          unfold qtStep
          have hnodst : ∀ x ∈ (if pExists fs (qtFwDst P name) then
              rmTree fs (qtFwDst P name) else fs),
              (x.1 == qtFwDst P name || sStarts x.1 (qtFwDst P name ++ "/")) = false := by
            cases hrm : pExists fs (qtFwDst P name) with
            | true =>
              simp only [hrm, if_true]
              exact rmTree_no_region fs (qtFwDst P name)
            | false =>
              simp only [hrm, Bool.false_eq_true, if_false]
              intro x hx
              have := List.any_eq_false.mp hrm
              have h2 := this x hx
              cases hq : (x.1 == qtFwDst P name || sStarts x.1 (qtFwDst P name ++ "/")) with
              | false => rfl
              | true => exact absurd hq h2
          rw [copyTree_get_dst s hs hnodst]
          cases hrm : pExists fs (qtFwDst P name) with
          | true =>
            simp only [hrm, if_true]
            apply fsGet_rmTree_of_notregion
            cases hreg : (qtFwSrc P name ++ s == qtFwDst P name ||
                sStarts (qtFwSrc P name ++ s) (qtFwDst P name ++ "/")) with
            | false => rfl
            | true =>
              exact (region_disj P hsep1 hsep2 (qtFwSrc P name ++ s).data
                (qt_prefix_qtFwSrc_app P name s)
                ((bd_prefix_qtFwDst P name).trans ( region_prefix hreg))).elim
          | false => simp only [hrm, Bool.false_eq_true, if_false]
        · have := hcopy name h' s hs
          rw [this]
          exact qtStep_get_qt P hsep1 hsep2 fs n _ (qt_prefix_qtFwSrc_app P name s)

theorem pExists_fsSet_irrel {fs : Fs} {t p : String} {e : Entry}
    (h : (t == p || sStarts t (p ++ "/")) = false) :
    pExists (fsSet fs t e) p = pExists fs p := by
  unfold pExists fsSet
  simp only [List.any_cons]
  have hh : ((t, e).1 == p || sStarts (t, e).1 (p ++ "/")) = false := h
  rw [hh]
  simp only [Bool.false_or]
  apply any_filter_eq_of
  intro x _ hpred
  cases hk : (x.1 != t) with
  | true => rfl
  | false =>
    have hxt : x.1 = t := by simpa using hk
    rw [hxt] at hpred
    rw [hpred] at h
    simp at h

theorem bd_prefix_pluginsDir (P : Params) :
    P.bundleDir.data <+: (pluginsDirOf P).data := by
  unfold pluginsDirOf
  rw [String.data_append]
  exact (bd_prefix_frameworksDir P).trans (List.prefix_append _ _)

theorem bd_prefix_libDir (P : Params) :
    P.bundleDir.data <+: (libDirOf P).data := by
  unfold libDirOf
  rw [String.data_append]
  exact (bd_prefix_frameworksDir P).trans (List.prefix_append _ _)

theorem mkdirP_pExists_irrel (P : Params) (hsep1 : sStarts P.qt P.bundleDir = false)
    (hsep2 : sStarts P.bundleDir P.qt = false) (fs : Fs) (d t : String)
    (hd : P.bundleDir.data <+: d.data) (ht : P.qt.data <+: t.data) :
    pExists (mkdirP fs d) t = pExists fs t := by
  unfold mkdirP
  cases hc : pExists fs d with
  | true => simp only [hc, if_true]
  | false =>
    simp only [hc, Bool.false_eq_true, if_false]
    apply pExists_fsSet_irrel
    cases hreg : (d == t || sStarts d (t ++ "/")) with
    | false => rfl
    | true =>
      exact (region_disj P hsep1 hsep2 d.data (ht.trans ( region_prefix hreg)) hd).elim

theorem mkdirPhase_pExists_qt (P : Params) (hsep1 : sStarts P.qt P.bundleDir = false)
    (hsep2 : sStarts P.bundleDir P.qt = false) (fs : Fs) (t : String)
    (ht : P.qt.data <+: t.data) :
    pExists (mkdirPhase P fs) t = pExists fs t := by
  unfold mkdirPhase
  rw [mkdirP_pExists_irrel P hsep1 hsep2 _ _ t (bd_prefix_libDir P) ht,
    mkdirP_pExists_irrel P hsep1 hsep2 _ _ t (bd_prefix_pluginsDir P) ht,
    mkdirP_pExists_irrel P hsep1 hsep2 _ _ t (bd_prefix_frameworksDir P) ht]

-- ── C5: the fixed framework list is bundled, or the program exits ────────

/-- C5: the tool is driven by exactly the six-element framework list; on
a separated layout (the Qt prefix and the bundle directory are not
nested), a missing source framework makes `bundle` exit with status 1,
and a successful framework phase implies every source framework existed
and the destination `<Frameworks>/<Name>.framework` subtree equals the
source `<qt_prefix>/lib/<Name>.framework` subtree entry for entry
(any previous destination copy having been removed). -/
theorem bundle_qt_frameworks :
    QT_FRAMEWORKS = ["QtCore", "QtGui", "QtWidgets", "QtNetwork", "QtDBus", "QtPrintSupport"] ∧
    ∀ (P : Params) (fuel : Nat) (fs : Fs),
      sStarts P.qt P.bundleDir = false → sStarts P.bundleDir P.qt = false →
      ((∃ name ∈ QT_FRAMEWORKS, pExists fs (qtFwSrc P name) = false) →
        ∃ fsE, bundle P fuel fs = some (.exited 1 fsE)) ∧
      (∀ fs', qtFwPhase P fs = .ok fs' →
        (∀ name ∈ QT_FRAMEWORKS, pExists fs (qtFwSrc P name) = true) ∧
        (∀ name ∈ QT_FRAMEWORKS, ∀ s : String, (s = "" ∨ sStarts s "/" = true) →
          fsGet fs' (qtFwDst P name ++ s) = fsGet fs (qtFwSrc P name ++ s))) := by
  refine ⟨rfl, ?_⟩
  intro P fuel fs hsep1 hsep2
  constructor
  · intro hmiss
    by_cases hc : (!isDirAt fs P.bundleDir || !pExists fs P.pluginBin) = true
    · refine ⟨fs, ?_⟩
      unfold bundle
      rw [if_pos hc]
    · have hmiss2 : ∃ name ∈ QT_FRAMEWORKS,
          pExists (mkdirPhase P fs) (qtFwSrc P name) = false := by
        rcases hmiss with ⟨name, hn, hm⟩
        refine ⟨name, hn, ?_⟩
        rw [mkdirPhase_pExists_qt P hsep1 hsep2 fs _ (qt_prefix_qtFwSrc P name)]
        exact hm
      rcases qtFwLoop_error P hsep1 hsep2 QT_FRAMEWORKS (mkdirPhase P fs) hmiss2 with
        ⟨fsE, hE⟩
      refine ⟨fsE, ?_⟩
      unfold bundle
      rw [if_neg hc]
      have hE2 : qtFwPhase P (mkdirPhase P fs) = .error fsE := hE
      rw [hE2]
  · intro fs' hok
    have hinc : ∀ a ∈ QT_FRAMEWORKS, ∀ b ∈ QT_FRAMEWORKS,
        ((a ++ ".framework").data.isPrefixOf ((b ++ ".framework").data)) = true → a = b := by
      decide
    have hnd : QT_FRAMEWORKS.Nodup := by decide
    exact qtFwLoop_ok P hsep1 hsep2 QT_FRAMEWORKS hinc hnd fs fs' hok

theorem bundle_qt_frameworks_inst :
    (∃ fsE, bundle Pc 5 fs0b = some (.exited 1 fsE)) ∧
    ((∀ name ∈ QT_FRAMEWORKS, pExists (mkdirPhase Pc fs0c) (qtFwSrc Pc name) = true) ∧
     (∀ name ∈ QT_FRAMEWORKS, ∀ s : String, (s = "" ∨ sStarts s "/" = true) →
       fsGet fs2c (qtFwDst Pc name ++ s) =
         fsGet (mkdirPhase Pc fs0c) (qtFwSrc Pc name ++ s))) :=
  ⟨(bundle_qt_frameworks.2 Pc 5 fs0b (by decide) (by decide)).1 (by decide),
   (bundle_qt_frameworks.2 Pc 20 (mkdirPhase Pc fs0c) (by decide) (by decide)).2 fs2c
     (by rfl)⟩
